import Mathlib

/-!
Verification of the `partial` Go package (Floyd–Rivest partial selection and
partial sorting over slices).

The slice is modelled as a `List E`; Go `int` indices are `Int`.  Every slice
access goes through a bounds-checked read/write that returns `Except Err`,
where `Err.oob` models the runtime panic Go raises on an out-of-range index.
Loops are embedded with an explicit step budget (`Err.fuel` on exhaustion);
sufficiency of the budgets passed at interior call sites is proved, so a
`fuel` error can only come from the caller-supplied budget of the outer
selection loop.

The floating-point sample-window computation of the Floyd–Rivest algorithm
(`math.Log`, `math.Exp`, `math.Sqrt` and the `sign` helper) is not
representable in this embedding; it is abstracted as a parameter `sp`
returning the two raw candidate bounds, while the `max`/`min` clamps of the
source are kept literally.  All theorems hold for every such `sp`, hence in
particular for the one the floating-point formulas compute.
-/

namespace PartSel

open List

/-- Evaluator errors: an out-of-range slice access (`oob`, a Go panic) or an
exhausted step budget (`fuel`). -/
inductive Err where
  | oob : Err
  | fuel : Err
deriving DecidableEq, Repr

/-- Read `x[i]` with the Go bounds check. -/
def geti {E : Type} (x : List E) (i : Int) : Except Err E :=
  if h : 0 ≤ i ∧ i.toNat < x.length then .ok (x.get ⟨i.toNat, h.2⟩) else .error .oob

/-- Write `x[i] = v` with the Go bounds check. -/
def seti {E : Type} (x : List E) (i : Int) (v : E) : Except Err (List E) :=
  if 0 ≤ i ∧ i.toNat < x.length then .ok (x.set i.toNat v) else .error .oob

/-- The Go parallel assignment `x[i], x[j] = x[j], x[i]`. -/
def swapi {E : Type} (x : List E) (i j : Int) : Except Err (List E) :=
  match geti x i, geti x j with
  | .ok a, .ok b =>
    (match seti x i b with
     | .ok y => seti y j a
     | .error e => .error e)
  | .error e, _ => .error e
  | .ok _, .error e => .error e

/-- The package's generic `min` helper (topk.go), at type `int`. -/
def minI (a b : Int) : Int := if a < b then a else b

/-- The package's generic `max` helper (topk.go), at type `int`. -/
def maxI (a b : Int) : Int := if a > b then a else b

/-- The inner scan `for i < length && less(x[i], t) { i++ }` of the
partition loop. -/
def iScan {E : Type} (less : E → E → Bool) (x : List E) (t : E) :
    Nat → Int → Except Err Int
  | 0, _ => .error .fuel
  | fl+1, i =>
    if i < (x.length : Int) then
      match geti x i with
      | .error e => .error e
      | .ok v => if less v t then iScan less x t fl (i+1) else .ok i
    else .ok i

/-- The inner scan `for j >= 0 && less(t, x[j]) { j-- }` of the
partition loop. -/
def jScan {E : Type} (less : E → E → Bool) (x : List E) (t : E) :
    Nat → Int → Except Err Int
  | 0, _ => .error .fuel
  | fl+1, j =>
    if 0 ≤ j then
      match geti x j with
      | .error e => .error e
      | .ok v => if less t v then jScan less x t fl (j-1) else .ok j
    else .ok j

/-- The two-pointer partition loop `for i < j { ... }` of `floydRivestFunc`.
Returns the final slice together with the final values of `i` and `j`. -/
def partLoop {E : Type} (less : E → E → Bool) (t : E) :
    Nat → List E → Int → Int → Except Err (List E × Int × Int)
  | 0, _, _, _ => .error .fuel
  | fl+1, x, i, j =>
    if i < j then
      match swapi x i j with
      | .error e => .error e
      | .ok x1 =>
        match iScan less x1 t (x1.length + 1) (i+1) with
        | .error e => .error e
        | .ok i1 =>
          match jScan less x1 t (x1.length + 1) (j-1) with
          | .error e => .error e
          | .ok j1 => partLoop less t fl x1 i1 j1
    else .ok (x, i, j)

/-- One iteration body of the `floydRivestFunc` outer loop: pivot read,
pre-swaps, the partition loop, and the final pivot placement.  Returns the
updated slice and the final index `j` used for window narrowing. -/
def frRound {E : Type} (less : E → E → Bool) (x : List E)
    (left right k : Int) : Except Err (List E × Int) :=
  match geti x k with
  | .error e => .error e
  | .ok t =>
    match swapi x left k with
    | .error e => .error e
    | .ok x1 =>
      match geti x1 right with
      | .error e => .error e
      | .ok vr =>
        match (if less t vr then swapi x1 left right else .ok x1) with
        | .error e => .error e
        | .ok x2 =>
          match partLoop less t ((right - left).toNat + 1) x2 left right with
          | .error e => .error e
          | .ok (x3, _, j) =>
            match geti x3 left with
            | .error e => .error e
            | .ok vl =>
              if !less vl t && !less t vl then
                match swapi x3 left j with
                | .error e => .error e
                | .ok x4 => .ok (x4, j)
              else
                match swapi x3 (j+1) right with
                | .error e => .error e
                | .ok x4 => .ok (x4, j+1)

/-- `floydRivestFunc` (topk.go).  `sp` abstracts the floating-point sample
bound computation (see the file comment); the outer `for right > left` loop
and the recursive sampling call share the step budget. -/
def frFunc {E : Type} (sp : Int → Int → Int → Int × Int) (less : E → E → Bool) :
    Nat → List E → Int → Int → Int → Except Err (List E)
  | 0, _, _, _, _ => .error .fuel
  | fl+1, x, left, right, k =>
    if right > left then
      match (if right - left > 600 then
               frFunc sp less fl x (maxI left (sp left right k).1)
                 (minI right (sp left right k).2) k
             else .ok x) with
      | .error e => .error e
      | .ok x1 =>
        match frRound less x1 left right k with
        | .error e => .error e
        | .ok (x2, j) =>
          frFunc sp less fl x2 (if j ≤ k then j + 1 else left)
            (if k ≤ j then j - 1 else right) k
    else .ok x

/-- The strict comparison of a natively ordered type, as a Bool; this is the
relation the `constraints.Ordered` versions of the code compare with. -/
def ltb {E : Type} [LinearOrder E] (a b : E) : Bool := decide (a < b)

/-- The non-strict comparison of a natively ordered type, as a Bool; the
order `slices.Sort` sorts by. -/
def leb {E : Type} [LinearOrder E] (a b : E) : Bool := decide (a ≤ b)

/-- One iteration body of the `floydRivest` outer loop (the
`constraints.Ordered` version): identical to `frRound` with `<` as the
comparison, except that the final pivot test is the native equality
`x[left] == t`. -/
def frRoundOrd {E : Type} [LinearOrder E] (x : List E)
    (left right k : Int) : Except Err (List E × Int) :=
  match geti x k with
  | .error e => .error e
  | .ok t =>
    match swapi x left k with
    | .error e => .error e
    | .ok x1 =>
      match geti x1 right with
      | .error e => .error e
      | .ok vr =>
        match (if ltb t vr then swapi x1 left right else .ok x1) with
        | .error e => .error e
        | .ok x2 =>
          match partLoop ltb t ((right - left).toNat + 1) x2 left right with
          | .error e => .error e
          | .ok (x3, _, j) =>
            match geti x3 left with
            | .error e => .error e
            | .ok vl =>
              if vl = t then
                match swapi x3 left j with
                | .error e => .error e
                | .ok x4 => .ok (x4, j)
              else
                match swapi x3 (j+1) right with
                | .error e => .error e
                | .ok x4 => .ok (x4, j+1)

/-- `floydRivest` (topk.go), the `constraints.Ordered` version. -/
def frOrd {E : Type} [LinearOrder E] (sp : Int → Int → Int → Int × Int) :
    Nat → List E → Int → Int → Int → Except Err (List E)
  | 0, _, _, _, _ => .error .fuel
  | fl+1, x, left, right, k =>
    if right > left then
      match (if right - left > 600 then
               frOrd sp fl x (maxI left (sp left right k).1)
                 (minI right (sp left right k).2) k
             else .ok x) with
      | .error e => .error e
      | .ok x1 =>
        match frRoundOrd x1 left right k with
        | .error e => .error e
        | .ok (x2, j) =>
          frOrd sp fl x2 (if j ≤ k then j + 1 else left)
            (if k ≤ j then j - 1 else right) k
    else .ok x

/-- `TopKFunc` (topk.go). -/
def TopKFunc {E : Type} (sp : Int → Int → Int → Int × Int)
    (less : E → E → Bool) (fl : Nat) (x : List E) (k : Int) :
    Except Err (List E) :=
  let k2 := minI k x.length
  if k2 > 0 then frFunc sp less fl x 0 ((x.length : Int) - 1) (k2 - 1)
  else .ok x

/-- `TopK` (topk.go). -/
def TopK {E : Type} [LinearOrder E] (sp : Int → Int → Int → Int × Int)
    (fl : Nat) (x : List E) (k : Int) : Except Err (List E) :=
  let k2 := minI k x.length
  if k2 > 0 then frOrd sp fl x 0 ((x.length : Int) - 1) (k2 - 1)
  else .ok x

/-- The in-place sort of the prefix `x[:m]`: `slices.Sort` /
`slices.SortFunc` restricted to the prefix.  Per the spec these are external
collaborators ("a correct comparison sort over the prefix"); they are
modelled by `List.mergeSort` with the corresponding non-strict order. -/
def sortPref {E : Type} (le : E → E → Bool) (m : Nat) (x : List E) :
    List E :=
  (x.take m).mergeSort le ++ x.drop m

/-- `Sort` (sort.go): clamp `k` to `min(k, len x)`, return unchanged unless
the clamped `k` is positive, otherwise select at index `k-1` and sort the
prefix `x[:k-1]`. -/
def PSort {E : Type} [LinearOrder E] (sp : Int → Int → Int → Int × Int)
    (fl : Nat) (x : List E) (k : Int) : Except Err (List E) :=
  let k2 := minI k x.length
  if k2 > 0 then
    match frOrd sp fl x 0 ((x.length : Int) - 1) (k2 - 1) with
    | .error e => .error e
    | .ok y => .ok (sortPref leb (k2 - 1).toNat y)
  else .ok x

/-- `SortFunc` (sort.go). -/
def PSortFunc {E : Type} (sp : Int → Int → Int → Int × Int)
    (less : E → E → Bool) (fl : Nat) (x : List E) (k : Int) :
    Except Err (List E) :=
  let k2 := minI k x.length
  if k2 > 0 then
    match frFunc sp less fl x 0 ((x.length : Int) - 1) (k2 - 1) with
    | .error e => .error e
    | .ok y => .ok (sortPref (fun a b => !less b a) (k2 - 1).toNat y)
  else .ok x

/-- `less` is asymmetric (half of being a strict weak order). -/
def Asymm {E : Type} (less : E → E → Bool) : Prop :=
  ∀ a b, less a b = true → less b a = false

/-- `less` is negatively transitive (the other half of being a strict weak
order): the induced `a ≤ b`, written `less b a = false`, is transitive. -/
def NegTrans {E : Type} (less : E → E → Bool) : Prop :=
  ∀ a b c, less b a = false → less c b = false → less c a = false

/-- Order-equivalence under `less`: neither is less than the other. -/
def EquivL {E : Type} (less : E → E → Bool) (a b : E) : Prop :=
  less a b = false ∧ less b a = false

/-- The slice is partitioned at the boundary `L`: every element at a
position `< L` is `≤` (under `less`) every element at a position `≥ L`. -/
def belowP {E : Type} (less : E → E → Bool) (d : E) (x : List E) (L : Int) : Prop :=
  ∀ p q : Nat, (p : Int) < L → L ≤ (q : Int) → q < x.length →
    less (x.getD q d) (x.getD p d) = false

/-- The slice is partitioned just above the boundary `R`: every element at a
position `≤ R` is `≤` (under `less`) every element at a position `> R`. -/
def aboveP {E : Type} (less : E → E → Bool) (d : E) (x : List E) (R : Int) : Prop :=
  ∀ p q : Nat, (p : Int) ≤ R → R < (q : Int) → q < x.length →
    less (x.getD q d) (x.getD p d) = false

/-- The slice is partitioned around the zero-based index `k`: everything
before `k` is not greater than `x[k]`, everything after is not less. -/
def partitionAt {E : Type} (less : E → E → Bool) (d : E) (y : List E) (k : Int) :
    Prop :=
  (∀ p : Nat, (p : Int) < k → less (y.getD k.toNat d) (y.getD p d) = false) ∧
  (∀ q : Nat, k < (q : Int) → q < y.length →
    less (y.getD q d) (y.getD k.toNat d) = false)

/-- A sampler that is never consulted on small windows; used for concrete
runs on short slices, where the sampling branch cannot trigger. -/
def spZ : Int → Int → Int → Int × Int := fun _ _ _ => (0, 0)

/-- A sampler whose clamped window always strictly shrinks, witnessing the
shrinking hypothesis of the termination theorem. -/
def spShrink : Int → Int → Int → Int × Int := fun l r _ => (l + 1, r - 1)

section BasicLemmas

variable {E : Type} (d : E)

/-- `getD` agrees with `getElem` in bounds. -/
theorem getD_lt (x : List E) {p : Nat} (h : p < x.length) : x.getD p d = x[p] := by
  simp [List.getD_eq_getElem?_getD, List.getElem?_eq_getElem h]

/-- `getD` is the default out of bounds. -/
theorem getD_ge (x : List E) {p : Nat} (h : x.length ≤ p) : x.getD p d = d := by
  simp [List.getD_eq_getElem?_getD, List.getElem?_eq_none h]

theorem getD_set_eq (x : List E) {p : Nat} (hp : p < x.length) (v : E) :
    (x.set p v).getD p d = v := by
  rw [getD_lt d _ (by simpa using hp)]
  simp [List.getElem_set_self]

theorem getD_set_ne (x : List E) {p q : Nat} (h : p ≠ q) (v : E) :
    (x.set p v).getD q d = x.getD q d := by
  by_cases hq : q < x.length
  · rw [getD_lt d _ (by simpa using hq), getD_lt d _ hq]
    exact List.getElem_set_ne h _
  · rw [getD_ge d _ (by simp; omega), getD_ge d _ (by omega)]

theorem geti_ok_iff {x : List E} {i : Int} {v : E} :
    geti x i = .ok v ↔ 0 ≤ i ∧ i.toNat < x.length ∧ x.getD i.toNat d = v := by
  unfold geti
  split
  · rename_i h
    simp only [Except.ok.injEq]
    constructor
    · rintro rfl
      exact ⟨h.1, h.2, by rw [getD_lt d _ h.2]; simp [List.get_eq_getElem]⟩
    · rintro ⟨-, -, hv⟩
      rw [← hv, getD_lt d _ h.2]; simp [List.get_eq_getElem]
  · rename_i h
    simp only [reduceCtorEq, false_iff]
    rintro ⟨h1, h2, -⟩
    exact h ⟨h1, h2⟩

theorem geti_ok_of {x : List E} {i : Int} (h0 : 0 ≤ i) (hi : i.toNat < x.length) :
    geti x i = .ok (x.getD i.toNat d) :=
  (geti_ok_iff d).2 ⟨h0, hi, rfl⟩

theorem seti_ok_of {x : List E} {i : Int} (h0 : 0 ≤ i) (hi : i.toNat < x.length) (v : E) :
    seti x i v = .ok (x.set i.toNat v) := by
  unfold seti
  rw [if_pos ⟨h0, hi⟩]

/-- Moving the element at index `q` to the head, after writing `v` at `q`,
is a permutation of putting `v` at the head. -/
theorem getD_cons_set_perm (d : E) :
    ∀ (x : List E) (q : Nat) (v : E), q < x.length →
      (x.getD q d) :: (x.set q v) ~ v :: x := by
  intro x
  induction x with
  | nil => intro q v hq; simp at hq
  | cons a tl ih =>
    intro q v hq
    cases q with
    | zero => simpa using List.Perm.swap v a tl
    | succ m =>
      have hm : m < tl.length := by simpa using hq
      calc tl.getD m d :: a :: tl.set m v
          ~ a :: tl.getD m d :: tl.set m v := List.Perm.swap _ _ _
        _ ~ a :: (v :: tl) := List.Perm.cons a (ih m v hm)
        _ ~ v :: a :: tl := List.Perm.swap _ _ _

/-- The double `set` performing a swap is a permutation. -/
theorem set_set_perm (d : E) :
    ∀ (x : List E) (p q : Nat), p < x.length → q < x.length →
      (x.set p (x.getD q d)).set q (x.getD p d) ~ x := by
  intro x
  induction x with
  | nil => intro p q hp _; simp at hp
  | cons a tl ih =>
    intro p q hp hq
    cases p with
    | zero =>
      cases q with
      | zero => simp
      | succ m =>
        have hm : m < tl.length := by simpa using hq
        simpa using getD_cons_set_perm d tl m a hm
    | succ s =>
      cases q with
      | zero =>
        have hs : s < tl.length := by simpa using hp
        simpa using getD_cons_set_perm d tl s a hs
      | succ m =>
        have hs : s < tl.length := by simpa using hp
        have hm : m < tl.length := by simpa using hq
        simpa using List.Perm.cons a (ih s m hs hm)

/-- Full characterisation of a successful `swapi`. -/
theorem swapi_ok_of {x : List E} {i j : Int}
    (h0i : 0 ≤ i) (hi : i.toNat < x.length) (h0j : 0 ≤ j) (hj : j.toNat < x.length) :
    ∃ y, swapi x i j = .ok y ∧ y.length = x.length ∧ y ~ x ∧
      y.getD i.toNat d = x.getD j.toNat d ∧
      y.getD j.toNat d = x.getD i.toNat d ∧
      ∀ p : Nat, p ≠ i.toNat → p ≠ j.toNat → y.getD p d = x.getD p d := by
  refine ⟨(x.set i.toNat (x.getD j.toNat d)).set j.toNat (x.getD i.toNat d), ?_, ?_, ?_, ?_, ?_, ?_⟩
  · unfold swapi
    rw [geti_ok_of d h0i hi, geti_ok_of d h0j hj]
    dsimp only
    rw [seti_ok_of h0i hi]
    dsimp only
    rw [seti_ok_of h0j (by simpa using hj)]
  · simp
  · exact set_set_perm d x i.toNat j.toNat hi hj
  · by_cases hij : i.toNat = j.toNat
    · rw [hij, getD_set_eq d _ (by simpa using hj)]
    · rw [getD_set_ne d _ (fun h => hij h.symm), getD_set_eq d _ hi]
  · exact getD_set_eq d _ (by simpa using hj) _
  · intro p hpi hpj
    rw [getD_set_ne d _ (fun h => hpj h.symm), getD_set_ne d _ (fun h => hpi h.symm)]

end BasicLemmas

section ScanLemmas

variable {E : Type}

/-- Full characterisation of the increasing scan: it succeeds given the
budget passed at its call sites, moves only upward, stops below the length
only at an element not less than `t`, and every skipped element is less
than `t`. -/
theorem iScan_spec (d : E) (less : E → E → Bool) :
    ∀ (fl : Nat) (x : List E) (t : E) (i : Int), 0 ≤ i → i ≤ (x.length : Int) →
    x.length + 1 ≤ fl + i.toNat →
    ∃ i1 : Int, iScan less x t fl i = .ok i1 ∧ i ≤ i1 ∧ i1 ≤ (x.length : Int) ∧ 0 ≤ i1 ∧
      (i1 < (x.length : Int) → less (x.getD i1.toNat d) t = false) ∧
      (∀ p : Nat, i ≤ (p : Int) → (p : Int) < i1 → less (x.getD p d) t = true) := by
  intro fl
  induction fl with
  | zero =>
    intro x t i h0 hle hfl
    omega
  | succ fl ih =>
    intro x t i h0 hle hfl
    rw [iScan]
    by_cases hil : i < (x.length : Int)
    · rw [if_pos hil]
      have hiN : i.toNat < x.length := by omega
      rw [geti_ok_of d h0 hiN]
      dsimp only
      by_cases hv : less (x.getD i.toNat d) t = true
      · rw [if_pos hv]
        obtain ⟨i1, heq, hge, hle1, h01, hstop, hpast⟩ :=
          ih x t (i+1) (by omega) (by omega) (by omega)
        refine ⟨i1, heq, by omega, hle1, h01, hstop, ?_⟩
        intro p hp1 hp2
        by_cases hpi : i + 1 ≤ (p : Int)
        · exact hpast p hpi hp2
        · have : (p : Int) = i := by omega
          have : p = i.toNat := by omega
          rw [this]
          exact hv
      · rw [Bool.not_eq_true] at hv
        rw [if_neg (by rw [hv]; simp)]
        refine ⟨i, rfl, le_refl i, by omega, h0, fun _ => hv, ?_⟩
        intro p hp1 hp2
        omega
    · rw [if_neg hil]
      refine ⟨i, rfl, le_refl i, hle, h0, fun h => absurd h hil, ?_⟩
      intro p hp1 hp2
      omega

/-- Full characterisation of the decreasing scan: it succeeds given the
budget passed at its call sites, moves only downward (never below `-1`),
stops at a nonnegative index only at an element not greater than `t`, and
every skipped element is greater than `t`. -/
theorem jScan_spec (d : E) (less : E → E → Bool) :
    ∀ (fl : Nat) (x : List E) (t : E) (j : Int), -1 ≤ j → j < (x.length : Int) →
    (j+1).toNat < fl →
    ∃ j1 : Int, jScan less x t fl j = .ok j1 ∧ j1 ≤ j ∧ -1 ≤ j1 ∧
      (0 ≤ j1 → less t (x.getD j1.toNat d) = false) ∧
      (∀ p : Nat, j1 < (p : Int) → (p : Int) ≤ j → less t (x.getD p d) = true) := by
  intro fl
  induction fl with
  | zero =>
    intro x t j h0 hlt hfl
    omega
  | succ fl ih =>
    intro x t j h0 hlt hfl
    rw [jScan]
    by_cases hj0 : 0 ≤ j
    · rw [if_pos hj0]
      have hjN : j.toNat < x.length := by omega
      rw [geti_ok_of d hj0 hjN]
      dsimp only
      by_cases hv : less t (x.getD j.toNat d) = true
      · rw [if_pos hv]
        obtain ⟨j1, heq, hlej, h1j, hstop, hpast⟩ :=
          ih x t (j-1) (by omega) (by omega) (by omega)
        refine ⟨j1, heq, by omega, h1j, hstop, ?_⟩
        intro p hp1 hp2
        by_cases hpj : (p : Int) ≤ j - 1
        · exact hpast p hp1 hpj
        · have : p = j.toNat := by omega
          rw [this]
          exact hv
      · rw [Bool.not_eq_true] at hv
        rw [if_neg (by rw [hv]; simp)]
        refine ⟨j, rfl, le_refl j, h0, fun _ => hv, ?_⟩
        intro p hp1 hp2
        omega
    · rw [if_neg hj0]
      refine ⟨j, rfl, le_refl j, h0, fun h => absurd h hj0, ?_⟩
      intro p hp1 hp2
      omega

end ScanLemmas

theorem asymm_irrefl {E : Type} {less : E → E → Bool} (hA : Asymm less) (a : E) :
    less a a = false := by
  by_cases h : less a a = true
  · exact hA a a h
  · exact Bool.not_eq_true _ |>.mp h

section PartLoopLemmas

variable {E : Type}

/-- Safety, frame and permutation facts about the partition loop, for an
arbitrary comparison function: it succeeds within the budget, permutes the
slice touching only `[i, j]`, moves the pointers monotonically with `j1 ≤ i1`
at exit, and the final `j1` cannot pass a position `L` (left of the window)
holding an element not greater than `t`. -/
theorem partLoop_safe (d : E) (less : E → E → Bool) (t : E) :
    ∀ (fl : Nat) (x : List E) (i j : Int),
    0 ≤ i → -1 ≤ j → j < (x.length : Int) → (j - i).toNat < fl →
    ∃ y i1 j1, partLoop less t fl x i j = .ok (y, i1, j1) ∧
      y.length = x.length ∧ y ~ x ∧
      (∀ p : Nat, ((p : Int) < i ∨ j < (p : Int)) → y.getD p d = x.getD p d) ∧
      i ≤ i1 ∧ j1 ≤ j ∧ -1 ≤ j1 ∧ j1 ≤ i1 ∧
      (∀ L : Int, 0 ≤ L → L < i → L ≤ j →
        less t (x.getD L.toNat d) = false → L ≤ j1) := by
  intro fl
  induction fl with
  | zero =>
    intro x i j h0i h1j hjlen hfl
    omega
  | succ fl ih =>
    intro x i j h0i h1j hjlen hfl
    rw [partLoop]
    by_cases hij : i < j
    · rw [if_pos hij]
      have h0j : 0 ≤ j := by omega
      have hiN : i.toNat < x.length := by omega
      have hjN : j.toNat < x.length := by omega
      obtain ⟨x1, hsw, hlen1, hperm1, hvi, hvj, hfr1⟩ := swapi_ok_of d h0i hiN h0j hjN
      rw [hsw]
      dsimp only
      obtain ⟨i1, hisc, hige, hile, h0i1, histop, hipast⟩ :=
        iScan_spec d less (x1.length + 1) x1 t (i+1) (by omega)
          (by rw [hlen1]; omega) (by omega)
      rw [hisc]
      dsimp only
      obtain ⟨j1, hjsc, hjle, h1j1, hjstop, hjpast⟩ :=
        jScan_spec d less (x1.length + 1) x1 t (j-1) (by omega)
          (by rw [hlen1]; omega) (by omega)
      rw [hjsc]
      dsimp only
      obtain ⟨y, i2, j2, heq, hlen2, hperm2, hfr2, hi12, hj12, h1j2, hji2, hcj2⟩ :=
        ih x1 i1 j1 (by omega) h1j1 (by rw [hlen1] at hile ⊢; omega) (by omega)
      refine ⟨y, i2, j2, heq, by omega, hperm2.trans hperm1, ?_, by omega, by omega,
        h1j2, hji2, ?_⟩
      · intro p hp
        have hne_i : p ≠ i.toNat := by omega
        have hne_j : p ≠ j.toNat := by omega
        rw [hfr2 p (by omega), hfr1 p hne_i hne_j]
      · intro L h0L hLi hLj hLle
        have hLN : x1.getD L.toNat d = x.getD L.toNat d := by
          refine hfr1 L.toNat (by omega) (by omega)
        have hLj1 : L ≤ j1 := by
          by_contra hc
          push_neg at hc
          have := hjpast L.toNat (by omega) (by omega)
          rw [hLN] at this
          rw [hLle] at this
          exact Bool.false_ne_true this
        refine hcj2 L h0L (by omega) hLj1 (by rw [hLN]; exact hLle)
    · rw [if_neg hij]
      refine ⟨x, i, j, rfl, rfl, List.Perm.refl x, fun p _ => rfl, le_refl i,
        le_refl j, h1j, by omega, fun L _ _ hLj _ => hLj⟩

/-- Order invariants of the partition loop under an asymmetric comparison.
Relative to an enclosing window `[l, r]` with `l < i` and `j < r`: if every
position of `[l, i)` holds an element not greater than the pivot `t`, every
position of `(j, r]` holds an element not less than `t`, and the two scan
stop conditions hold at `i` and `j`, then the loop preserves and extends
these facts to its final pointers, with `l ≤ j1 ≤ i1`. -/
theorem partLoop_inv (d : E) (less : E → E → Bool) (t : E) (hA : Asymm less)
    (l r : Int) :
    ∀ (fl : Nat) (x : List E) (i j : Int),
    0 ≤ l → l < i → l ≤ j → j < r → r < (x.length : Int) →
    (j - i).toNat < fl →
    (∀ p : Nat, l ≤ (p : Int) → (p : Int) < i → less t (x.getD p d) = false) →
    (∀ q : Nat, j < (q : Int) → (q : Int) ≤ r → less (x.getD q d) t = false) →
    (i < (x.length : Int) → less (x.getD i.toNat d) t = false) →
    less t (x.getD j.toNat d) = false →
    ∃ y i1 j1, partLoop less t fl x i j = .ok (y, i1, j1) ∧
      y.length = x.length ∧ y ~ x ∧
      (∀ p : Nat, ((p : Int) < i ∨ j < (p : Int)) → y.getD p d = x.getD p d) ∧
      i ≤ i1 ∧ j1 ≤ j ∧ l ≤ j1 ∧ j1 ≤ i1 ∧
      (∀ p : Nat, l ≤ (p : Int) → (p : Int) < i1 → less t (y.getD p d) = false) ∧
      (∀ q : Nat, j1 < (q : Int) → (q : Int) ≤ r → less (y.getD q d) t = false) ∧
      (i1 < (x.length : Int) → less (y.getD i1.toNat d) t = false) ∧
      less t (y.getD j1.toNat d) = false := by
  intro fl
  induction fl with
  | zero =>
    intro x i j _ _ _ _ _ hfl
    omega
  | succ fl ih =>
    intro x i j h0l hli hlj hjr hrlen hfl hP1 hP2 hSI hSJ
    rw [partLoop]
    by_cases hij : i < j
    · rw [if_pos hij]
      have h0i : 0 ≤ i := by omega
      have h0j : 0 ≤ j := by omega
      have hiN : i.toNat < x.length := by omega
      have hjN : j.toNat < x.length := by omega
      obtain ⟨x1, hsw, hlen1, hperm1, hvi, hvj, hfr1⟩ := swapi_ok_of d h0i hiN h0j hjN
      rw [hsw]
      dsimp only
      -- invariants on the swapped slice
      have hP1x1 : ∀ p : Nat, l ≤ (p : Int) → (p : Int) < i + 1 →
          less t (x1.getD p d) = false := by
        intro p hp1 hp2
        by_cases hpi : (p : Int) < i
        · rw [hfr1 p (by omega) (by omega)]
          exact hP1 p hp1 hpi
        · have hpe : p = i.toNat := by omega
          rw [hpe, hvi]
          exact hSJ
      have hP2x1 : ∀ q : Nat, j - 1 < (q : Int) → (q : Int) ≤ r →
          less (x1.getD q d) t = false := by
        intro q hq1 hq2
        by_cases hqj : j < (q : Int)
        · rw [hfr1 q (by omega) (by omega)]
          exact hP2 q hqj hq2
        · have hqe : q = j.toNat := by omega
          rw [hqe, hvj]
          exact hSI (by omega)
      obtain ⟨i1, hisc, hige, hile, h0i1, histop, hipast⟩ :=
        iScan_spec d less (x1.length + 1) x1 t (i+1) (by omega)
          (by rw [hlen1]; omega) (by omega)
      rw [hisc]
      dsimp only
      obtain ⟨j1, hjsc, hjle, h1j1, hjstop, hjpast⟩ :=
        jScan_spec d less (x1.length + 1) x1 t (j-1) (by omega)
          (by rw [hlen1]; omega) (by omega)
      rw [hjsc]
      dsimp only
      -- the decreasing scan cannot pass position l
      have hlj1 : l ≤ j1 := by
        by_contra hc
        push_neg at hc
        have := hjpast l.toNat (by omega) (by omega)
        rw [hP1x1 l.toNat (by omega) (by omega)] at this
        exact Bool.false_ne_true this
      -- extended invariants after the scans
      have hP1i1 : ∀ p : Nat, l ≤ (p : Int) → (p : Int) < i1 →
          less t (x1.getD p d) = false := by
        intro p hp1 hp2
        by_cases hpi : (p : Int) < i + 1
        · exact hP1x1 p hp1 hpi
        · exact hA _ _ (hipast p (by omega) hp2)
      have hP2j1 : ∀ q : Nat, j1 < (q : Int) → (q : Int) ≤ r →
          less (x1.getD q d) t = false := by
        intro q hq1 hq2
        by_cases hqj : j - 1 < (q : Int)
        · exact hP2x1 q hqj hq2
        · exact hA _ _ (hjpast q hq1 (by omega))
      obtain ⟨y, i2, j2, heq, hlen2, hperm2, hfr2, hi12, hj12, hlj2, hji2,
        hP1f, hP2f, hSIf, hSJf⟩ :=
        ih x1 i1 j1 h0l (by omega) hlj1 (by omega) (by omega)
          (by omega) hP1i1 hP2j1 histop (hjstop (by omega))
      rw [hlen1] at hSIf
      refine ⟨y, i2, j2, heq, by omega, hperm2.trans hperm1, ?_, by omega, by omega,
        hlj2, hji2, hP1f, hP2f, hSIf, hSJf⟩
      intro p hp
      have hne_i : p ≠ i.toNat := by omega
      have hne_j : p ≠ j.toNat := by omega
      rw [hfr2 p (by omega), hfr1 p hne_i hne_j]
    · rw [if_neg hij]
      exact ⟨x, i, j, rfl, rfl, List.Perm.refl x, fun p _ => rfl, le_refl i,
        le_refl j, hlj, by omega, hP1, hP2, hSI, hSJ⟩

end PartLoopLemmas

section RoundLemmas

variable {E : Type}

/-- Safety and permutation facts about one round of the outer loop, for an
arbitrary comparison function: given a window `l < r` inside the slice and a
pivot index `k` inside the slice, the round succeeds (no out-of-range
access), permutes the slice, and returns a narrowing index in `[0, r]`. -/
theorem frRound_safe (d : E) (less : E → E → Bool)
    (x : List E) (l r k : Int)
    (h0l : 0 ≤ l) (hlr : l < r) (hrlen : r < (x.length : Int))
    (h0k : 0 ≤ k) (hklen : k < (x.length : Int)) :
    ∃ z jst, frRound less x l r k = .ok (z, jst) ∧
      z.length = x.length ∧ z ~ x ∧ 0 ≤ jst ∧ jst ≤ r := by
  have hkN : k.toNat < x.length := by omega
  have hlN : l.toNat < x.length := by omega
  have hrN : r.toNat < x.length := by omega
  rw [frRound, geti_ok_of d h0k hkN]
  dsimp only
  set t := x.getD k.toNat d with ht
  obtain ⟨x1, hsw1, hlen1, hperm1, hv1l, hv1k, hfr1⟩ := swapi_ok_of d h0l hlN h0k hkN
  rw [hsw1]
  dsimp only
  rw [geti_ok_of d (by omega) (by omega : r.toNat < x1.length)]
  dsimp only
  -- the optional second pre-swap, unified over the branch
  obtain ⟨x2, hx2, hlen2, hperm2, hfr2⟩ :
      ∃ x2, (if less t (x1.getD r.toNat d) then swapi x1 l r else .ok x1) = .ok x2 ∧
        x2.length = x1.length ∧ x2 ~ x1 ∧
        (∀ p : Nat, p ≠ l.toNat → p ≠ r.toNat → x2.getD p d = x1.getD p d) := by
    by_cases hb : less t (x1.getD r.toNat d) = true
    · rw [if_pos hb]
      obtain ⟨x2, hsw2, hl2, hp2, _, _, hf2⟩ :=
        swapi_ok_of d h0l (by omega : l.toNat < x1.length) (by omega)
          (by omega : r.toNat < x1.length)
      exact ⟨x2, hsw2, hl2, hp2, hf2⟩
    · rw [if_neg hb]
      exact ⟨x1, rfl, rfl, List.Perm.refl x1, fun p _ _ => rfl⟩
  rw [hx2]
  dsimp only
  have hlen2x : x2.length = x.length := by omega
  -- first iteration of the partition loop, unfolded by hand
  rw [partLoop, if_pos hlr]
  obtain ⟨x3, hsw3, hlen3, hperm3, hv3l, hv3r, hfr3⟩ :=
    swapi_ok_of d h0l (by omega : l.toNat < x2.length) (by omega)
      (by omega : r.toNat < x2.length)
  rw [hsw3]
  dsimp only
  obtain ⟨i1, hisc, hige, hile, h0i1, histop, hipast⟩ :=
    iScan_spec d less (x3.length + 1) x3 t (l+1) (by omega) (by omega) (by omega)
  rw [hisc]
  dsimp only
  obtain ⟨j1, hjsc, hjle, h1j1, hjstop, hjpast⟩ :=
    jScan_spec d less (x3.length + 1) x3 t (r-1) (by omega) (by omega) (by omega)
  rw [hjsc]
  dsimp only
  obtain ⟨y, i2, j2, heq, hleny, hpermy, hfry, hi12, hj12, h1j2, hji2, hcj2⟩ :=
    partLoop_safe d less t ((r - l).toNat) x3 i1 j1 (by omega) h1j1
      (by omega) (by omega)
  rw [heq]
  dsimp only
  have hlenyx : y.length = x.length := by omega
  rw [geti_ok_of d h0l (by omega : l.toNat < y.length)]
  dsimp only
  have hyl : y.getD l.toNat d = x3.getD l.toNat d := hfry l.toNat (by omega)
  by_cases hfix : (!less (y.getD l.toNat d) t && !less t (y.getD l.toNat d)) = true
  · rw [if_pos hfix]
    have hfx2 : less t (y.getD l.toNat d) = false := by
      rcases Bool.and_eq_true _ _ |>.mp hfix with ⟨-, h2⟩
      simpa using h2
    have hlj1 : l ≤ j1 := by
      by_contra hc
      push_neg at hc
      have := hjpast l.toNat (by omega) (by omega)
      rw [← hyl] at this
      rw [hfx2] at this
      exact Bool.false_ne_true this
    have hlj2 : l ≤ j2 := by
      refine hcj2 l h0l (by omega) hlj1 ?_
      rw [← hyl]
      exact hfx2
    obtain ⟨z, hswz, hlenz, hpermz, _, _, _⟩ :=
      swapi_ok_of d h0l (by omega : l.toNat < y.length) (by omega)
        (by omega : j2.toNat < y.length)
    rw [hswz]
    dsimp only
    exact ⟨z, j2, rfl, by omega, (hpermz.trans hpermy).trans
      ((hperm3.trans hperm2).trans hperm1), by omega, by omega⟩
  · rw [if_neg hfix]
    obtain ⟨z, hswz, hlenz, hpermz, _, _, _⟩ :=
      swapi_ok_of d (by omega : (0:Int) ≤ j2 + 1)
        (by omega : (j2+1).toNat < y.length) (by omega)
        (by omega : r.toNat < y.length)
    rw [hswz]
    dsimp only
    exact ⟨z, j2 + 1, rfl, by omega, (hpermz.trans hpermy).trans
      ((hperm3.trans hperm2).trans hperm1), by omega, by omega⟩

/-- Full correctness of one round of the outer loop under an asymmetric
comparison: the returned index `jst` lies in `[l, r]`, the element there is
order-equivalent to the old pivot `x[k]`, positions `[l, jst)` hold elements
not greater than the pivot, positions `(jst, r]` hold elements not less than
the pivot, and outside `[l, r] ∪ {k}` the slice is untouched. -/
theorem frRound_inv (d : E) (less : E → E → Bool) (hA : Asymm less)
    (x : List E) (l r k : Int)
    (h0l : 0 ≤ l) (hlr : l < r) (hrlen : r < (x.length : Int))
    (h0k : 0 ≤ k) (hklen : k < (x.length : Int)) :
    ∃ z jst, frRound less x l r k = .ok (z, jst) ∧
      z.length = x.length ∧ z ~ x ∧ l ≤ jst ∧ jst ≤ r ∧
      (∀ p : Nat, ((p : Int) < l ∨ r < (p : Int)) → (p : Int) ≠ k →
        z.getD p d = x.getD p d) ∧
      less (z.getD jst.toNat d) (x.getD k.toNat d) = false ∧
      less (x.getD k.toNat d) (z.getD jst.toNat d) = false ∧
      (∀ p : Nat, l ≤ (p : Int) → (p : Int) < jst →
        less (x.getD k.toNat d) (z.getD p d) = false) ∧
      (∀ q : Nat, jst < (q : Int) → (q : Int) ≤ r →
        less (z.getD q d) (x.getD k.toNat d) = false) := by
  have hkN : k.toNat < x.length := by omega
  have hlN : l.toNat < x.length := by omega
  have hrN : r.toNat < x.length := by omega
  rw [frRound, geti_ok_of d h0k hkN]
  dsimp only
  set t := x.getD k.toNat d with ht
  obtain ⟨x1, hsw1, hlen1, hperm1, hv1l, hv1k, hfr1⟩ := swapi_ok_of d h0l hlN h0k hkN
  rw [hsw1]
  dsimp only
  rw [geti_ok_of d (by omega) (by omega : r.toNat < x1.length)]
  dsimp only
  -- the optional second pre-swap, unified over the branch
  obtain ⟨x2, hx2, hlen2, hperm2, hfr2, hF1, hF2, hHE⟩ :
      ∃ x2, (if less t (x1.getD r.toNat d) then swapi x1 l r else .ok x1) = .ok x2 ∧
        x2.length = x1.length ∧ x2 ~ x1 ∧
        (∀ p : Nat, p ≠ l.toNat → p ≠ r.toNat → x2.getD p d = x1.getD p d) ∧
        less (x2.getD l.toNat d) t = false ∧
        less t (x2.getD r.toNat d) = false ∧
        ((less (x2.getD l.toNat d) t = false ∧ less t (x2.getD l.toNat d) = false) ∨
         (less (x2.getD r.toNat d) t = false ∧ less t (x2.getD r.toNat d) = false)) := by
    by_cases hb : less t (x1.getD r.toNat d) = true
    · rw [if_pos hb]
      obtain ⟨x2, hsw2, hl2, hp2, hv2l, hv2r, hf2⟩ :=
        swapi_ok_of d h0l (by omega : l.toNat < x1.length) (by omega)
          (by omega : r.toNat < x1.length)
      have hx2r : x2.getD r.toNat d = t := by rw [hv2r, hv1l, ← ht]
      refine ⟨x2, hsw2, hl2, hp2, hf2, ?_, ?_, Or.inr ?_⟩
      · rw [hv2l]
        exact hA _ _ hb
      · rw [hx2r]
        exact asymm_irrefl hA t
      · rw [hx2r]
        exact ⟨asymm_irrefl hA t, asymm_irrefl hA t⟩
    · rw [if_neg hb]
      rw [Bool.not_eq_true] at hb
      have hx1l : x1.getD l.toNat d = t := by rw [hv1l, ← ht]
      refine ⟨x1, rfl, rfl, List.Perm.refl x1, fun p _ _ => rfl, ?_, hb, Or.inl ?_⟩
      · rw [hx1l]
        exact asymm_irrefl hA t
      · rw [hx1l]
        exact ⟨asymm_irrefl hA t, asymm_irrefl hA t⟩
  rw [hx2]
  dsimp only
  have hlen2x : x2.length = x.length := by omega
  -- first iteration of the partition loop, unfolded by hand
  rw [partLoop, if_pos hlr]
  obtain ⟨x3, hsw3, hlen3, hperm3, hv3l, hv3r, hfr3⟩ :=
    swapi_ok_of d h0l (by omega : l.toNat < x2.length) (by omega)
      (by omega : r.toNat < x2.length)
  rw [hsw3]
  dsimp only
  have hG1 : less t (x3.getD l.toNat d) = false := by rw [hv3l]; exact hF2
  have hG2 : less (x3.getD r.toNat d) t = false := by rw [hv3r]; exact hF1
  have hHE3 : (less (x3.getD l.toNat d) t = false ∧ less t (x3.getD l.toNat d) = false) ∨
      (less (x3.getD r.toNat d) t = false ∧ less t (x3.getD r.toNat d) = false) := by
    rcases hHE with h | h
    · exact Or.inr (by rw [hv3r]; exact h)
    · exact Or.inl (by rw [hv3l]; exact h)
  obtain ⟨i1, hisc, hige, hile, h0i1, histop, hipast⟩ :=
    iScan_spec d less (x3.length + 1) x3 t (l+1) (by omega) (by omega) (by omega)
  rw [hisc]
  dsimp only
  obtain ⟨j1, hjsc, hjle, h1j1, hjstop, hjpast⟩ :=
    jScan_spec d less (x3.length + 1) x3 t (r-1) (by omega) (by omega) (by omega)
  rw [hjsc]
  dsimp only
  have hlj1 : l ≤ j1 := by
    by_contra hc
    push_neg at hc
    have := hjpast l.toNat (by omega) (by omega)
    rw [hG1] at this
    exact Bool.false_ne_true this
  have hP1 : ∀ p : Nat, l ≤ (p : Int) → (p : Int) < i1 →
      less t (x3.getD p d) = false := by
    intro p hp1 hp2
    by_cases hpl : (p : Int) = l
    · have : p = l.toNat := by omega
      rw [this]
      exact hG1
    · exact hA _ _ (hipast p (by omega) hp2)
  have hP2 : ∀ q : Nat, j1 < (q : Int) → (q : Int) ≤ r →
      less (x3.getD q d) t = false := by
    intro q hq1 hq2
    by_cases hqr : (q : Int) = r
    · have : q = r.toNat := by omega
      rw [this]
      exact hG2
    · exact hA _ _ (hjpast q hq1 (by omega))
  obtain ⟨y, i2, j2, heq, hleny, hpermy, hfry, hi12, hj12, hlj2, hji2,
      hP1f, hP2f, hSIf, hSJf⟩ :=
    partLoop_inv d less t hA l r ((r - l).toNat) x3 i1 j1 h0l (by omega) hlj1
      (by omega) (by omega) (by omega) hP1 hP2 histop (hjstop (by omega))
  rw [heq]
  dsimp only
  have hlenyx : y.length = x.length := by omega
  rw [geti_ok_of d h0l (by omega : l.toNat < y.length)]
  dsimp only
  have hyl : y.getD l.toNat d = x3.getD l.toNat d := hfry l.toNat (by omega)
  have hyr : y.getD r.toNat d = x3.getD r.toNat d := hfry r.toNat (by omega)
  by_cases hfix : (!less (y.getD l.toNat d) t && !less t (y.getD l.toNat d)) = true
  · rw [if_pos hfix]
    obtain ⟨hfx1, hfx2⟩ : less (y.getD l.toNat d) t = false ∧
        less t (y.getD l.toNat d) = false := by
      rcases Bool.and_eq_true _ _ |>.mp hfix with ⟨h1, h2⟩
      exact ⟨by simpa using h1, by simpa using h2⟩
    obtain ⟨z, hswz, hlenz, hpermz, hvzl, hvzj, hfrz⟩ :=
      swapi_ok_of d h0l (by omega : l.toNat < y.length) (by omega)
        (by omega : j2.toNat < y.length)
    rw [hswz]
    dsimp only
    refine ⟨z, j2, rfl, by omega, (hpermz.trans hpermy).trans
      ((hperm3.trans hperm2).trans hperm1), hlj2, by omega, ?_, ?_, ?_, ?_, ?_⟩
    · intro p hp hpk
      have hz : z.getD p d = y.getD p d := hfrz p (by omega) (by omega)
      rw [hz, hfry p (by omega), hfr3 p (by omega) (by omega),
        hfr2 p (by omega) (by omega), hfr1 p (by omega) (by omega)]
    · rw [hvzj]
      exact hfx1
    · rw [hvzj]
      exact hfx2
    · intro p hp1 hp2
      by_cases hpl : (p : Int) = l
      · have : p = l.toNat := by omega
        rw [this, hvzl]
        exact hSJf
      · rw [hfrz p (by omega) (by omega)]
        exact hP1f p hp1 (by omega)
    · intro q hq1 hq2
      rw [hfrz q (by omega) (by omega)]
      exact hP2f q hq1 hq2
  · rw [if_neg hfix]
    have hOr : less (y.getD l.toNat d) t = true ∨ less t (y.getD l.toNat d) = true := by
      by_cases h1 : less (y.getD l.toNat d) t = true
      · exact Or.inl h1
      · by_cases h2 : less t (y.getD l.toNat d) = true
        · exact Or.inr h2
        · exfalso
          rw [Bool.not_eq_true] at h1 h2
          exact hfix (by rw [h1, h2]; rfl)
    have hEr : less (y.getD r.toNat d) t = false ∧ less t (y.getD r.toNat d) = false := by
      rcases hHE3 with h | h
      · exfalso
        rw [← hyl] at h
        rcases hOr with ho | ho
        · rw [h.1] at ho
          exact Bool.false_ne_true ho
        · rw [h.2] at ho
          exact Bool.false_ne_true ho
      · rw [hyr]
        exact h
    obtain ⟨z, hswz, hlenz, hpermz, hvzj, hvzr, hfrz⟩ :=
      swapi_ok_of d (by omega : (0:Int) ≤ j2 + 1)
        (by omega : (j2+1).toNat < y.length) (by omega)
        (by omega : r.toNat < y.length)
    rw [hswz]
    dsimp only
    refine ⟨z, j2 + 1, rfl, by omega, (hpermz.trans hpermy).trans
      ((hperm3.trans hperm2).trans hperm1), by omega, by omega, ?_, ?_, ?_, ?_, ?_⟩
    · intro p hp hpk
      have hz : z.getD p d = y.getD p d := hfrz p (by omega) (by omega)
      rw [hz, hfry p (by omega), hfr3 p (by omega) (by omega),
        hfr2 p (by omega) (by omega), hfr1 p (by omega) (by omega)]
    · rw [hvzj]
      exact hEr.1
    · rw [hvzj]
      exact hEr.2
    · intro p hp1 hp2
      have hz : z.getD p d = y.getD p d := hfrz p (by omega) (by omega)
      rw [hz]
      by_cases hpj : (p : Int) = j2
      · have : p = j2.toNat := by omega
        rw [this]
        exact hSJf
      · exact hP1f p hp1 (by omega)
    · intro q hq1 hq2
      by_cases hqr : (q : Int) = r
      · have : q = r.toNat := by omega
        rw [this, hvzr]
        have : ((j2 + 1).toNat : Int) = j2 + 1 := by omega
        exact hP2f (j2+1).toNat (by omega) (by omega)
      · rw [hfrz q (by omega) (by omega)]
        exact hP2f q (by omega) hq2

end RoundLemmas

section PreserveLemmas

variable {E : Type}

/-- If the prefix below `L` is untouched and the whole slice permuted, every
element at a position `≥ L` of `y` sits at some position `≥ L` of `x`. -/
theorem suffix_source (d : E) {x y : List E} (L : Nat)
    (hlen : y.length = x.length) (hperm : y ~ x)
    (hpre : ∀ p : Nat, p < L → y.getD p d = x.getD p d) :
    ∀ q : Nat, L ≤ q → q < y.length → ∃ q2 : Nat, L ≤ q2 ∧ q2 < x.length ∧
      y.getD q d = x.getD q2 d := by
  have htake : y.take L = x.take L := by
    apply List.ext_getElem
    · simp [hlen]
    · intro i h1 h2
      have hiL : i < L := by simp at h1; omega
      have hiy : i < y.length := by simp at h1; omega
      rw [List.getElem_take, List.getElem_take, ← getD_lt d y hiy,
        ← getD_lt d x (by omega), hpre i hiL]
  have hdrop : y.drop L ~ x.drop L := by
    have h1 : y.take L ++ y.drop L ~ x.take L ++ x.drop L := by
      rw [List.take_append_drop, List.take_append_drop]
      exact hperm
    rw [htake] at h1
    exact (List.perm_append_left_iff _).mp h1
  intro q hq hqlen
  have hql : q - L < (y.drop L).length := by simp; omega
  have hval : (y.drop L)[q - L] = y.getD q d := by
    rw [List.getElem_drop, ← getD_lt d y (by omega)]
    congr 1
    omega
  have hmem : y.getD q d ∈ x.drop L := by
    rw [← hval]
    exact hdrop.mem_iff.mp (List.getElem_mem hql)
  obtain ⟨idx, hidx, hval2⟩ := List.getElem_of_mem hmem
  refine ⟨L + idx, by omega, by simp at hidx; omega, ?_⟩
  rw [← hval2, List.getElem_drop, ← getD_lt d x (by simp at hidx; omega)]

/-- If the suffix from `L` on is untouched and the whole slice permuted,
every element at a position `< L` of `y` sits at some position `< L` of
`x`. -/
theorem prefix_source (d : E) {x y : List E} (L : Nat)
    (hlen : y.length = x.length) (hperm : y ~ x)
    (hsuf : ∀ p : Nat, L ≤ p → y.getD p d = x.getD p d) :
    ∀ q : Nat, q < L → q < y.length → ∃ q2 : Nat, q2 < L ∧ q2 < x.length ∧
      y.getD q d = x.getD q2 d := by
  have hdrop : y.drop L = x.drop L := by
    apply List.ext_getElem
    · simp [hlen]
    · intro i h1 h2
      rw [List.getElem_drop, List.getElem_drop, ← getD_lt d y (by simp at h1; omega),
        ← getD_lt d x (by simp at h2; omega), hsuf (L + i) (by omega)]
  have htake : y.take L ~ x.take L := by
    have h1 : y.take L ++ y.drop L ~ x.take L ++ x.drop L := by
      rw [List.take_append_drop, List.take_append_drop]
      exact hperm
    rw [hdrop] at h1
    exact (List.perm_append_right_iff _).mp h1
  intro q hq hqlen
  have hql : q < (y.take L).length := by simp; omega
  have hval : (y.take L)[q] = y.getD q d := by
    rw [List.getElem_take, ← getD_lt d y hqlen]
  have hmem : y.getD q d ∈ x.take L := by
    rw [← hval]
    exact htake.mem_iff.mp (List.getElem_mem hql)
  obtain ⟨idx, hidx, hval2⟩ := List.getElem_of_mem hmem
  refine ⟨idx, by simp at hidx; omega, by simp at hidx; omega, ?_⟩
  rw [← hval2, List.getElem_take, ← getD_lt d x (by simp at hidx; omega)]

/-- `belowP` is preserved by any operation that fixes the prefix below `L`
pointwise and permutes the rest. -/
theorem belowP_preserved (d : E) (less : E → E → Bool) {x y : List E} {L : Int}
    (hlen : y.length = x.length) (hperm : y ~ x)
    (hpre : ∀ p : Nat, (p : Int) < L → y.getD p d = x.getD p d)
    (hb : belowP less d x L) : belowP less d y L := by
  intro p q hp hq hqlen
  obtain ⟨q2, hq2L, hq2len, hval⟩ :=
    suffix_source d L.toNat hlen hperm (fun p2 hp2 => hpre p2 (by omega))
      q (by omega) hqlen
  rw [hval, hpre p hp]
  exact hb p q2 hp (by omega) hq2len

/-- `aboveP` is preserved by any operation that fixes the suffix above `R`
pointwise and permutes the rest. -/
theorem aboveP_preserved (d : E) (less : E → E → Bool) {x y : List E} {R : Int}
    (hlen : y.length = x.length) (hperm : y ~ x)
    (hsuf : ∀ p : Nat, R < (p : Int) → y.getD p d = x.getD p d)
    (hb : aboveP less d x R) : aboveP less d y R := by
  intro p q hp hq hqlen
  obtain ⟨p2, hp2L, hp2len, hval⟩ :=
    prefix_source d (R+1).toNat hlen hperm (fun p2 hp2 => hsuf p2 (by omega))
      p (by omega) (by omega)
  rw [hval, hsuf q hq]
  exact hb p2 q (by omega) hq (by omega)

end PreserveLemmas

/-- Gluing the conclusions of one round into the boundary invariants used by
window narrowing: after a round at window `[l, r]` with pivot index `k` in
the window, the slice stays partitioned at `l` and just above `r`, and is
additionally partitioned at `jst + 1` and just above `jst - 1`. -/
theorem round_below_above {E : Type} (d : E) (less : E → E → Bool)
    (hN : NegTrans less) {x1 z : List E} {l r k jst : Int}
    (h0l : 0 ≤ l) (hlk : l ≤ k) (hkr : k ≤ r)
    (hlenz : z.length = x1.length) (hpermz : z ~ x1)
    (hljst : l ≤ jst) (hjstr : jst ≤ r)
    (hfrz : ∀ p : Nat, ((p : Int) < l ∨ r < (p : Int)) → (p : Int) ≠ k →
      z.getD p d = x1.getD p d)
    (hpiv1 : less (z.getD jst.toNat d) (x1.getD k.toNat d) = false)
    (hpiv2 : less (x1.getD k.toNat d) (z.getD jst.toNat d) = false)
    (hRP1 : ∀ p : Nat, l ≤ (p : Int) → (p : Int) < jst →
      less (x1.getD k.toNat d) (z.getD p d) = false)
    (hRP2 : ∀ q : Nat, jst < (q : Int) → (q : Int) ≤ r →
      less (z.getD q d) (x1.getD k.toNat d) = false)
    (hbel : belowP less d x1 l) (habo : aboveP less d x1 r) :
    belowP less d z l ∧ aboveP less d z r ∧
    belowP less d z (jst + 1) ∧ aboveP less d z (jst - 1) := by
  set t := x1.getD k.toNat d with ht
  have hbelz : belowP less d z l :=
    belowP_preserved d less hlenz hpermz
      (fun p hp => hfrz p (Or.inl hp) (by omega)) hbel
  have haboz : aboveP less d z r :=
    aboveP_preserved d less hlenz hpermz
      (fun p hp => hfrz p (Or.inr hp) (by omega)) habo
  refine ⟨hbelz, haboz, ?_, ?_⟩
  · intro p q hp hq hqlen
    by_cases hpl : (p : Int) < l
    · exact hbelz p q hpl (by omega) hqlen
    · have hzp : less t (z.getD p d) = false := by
        by_cases hpj : (p : Int) = jst
        · have hpe : p = jst.toNat := by omega
          rw [hpe]
          exact hpiv2
        · exact hRP1 p (by omega) (by omega)
      by_cases hqr : (q : Int) ≤ r
      · exact hN _ _ _ hzp (hRP2 q (by omega) hqr)
      · exact haboz p q (by omega) (by omega) hqlen
  · intro p q hp hq hqlen
    by_cases hqr : r < (q : Int)
    · exact haboz p q (by omega) hqr hqlen
    · have hzq : less (z.getD q d) t = false := by
        by_cases hqj : (q : Int) = jst
        · have hqe : q = jst.toNat := by omega
          rw [hqe]
          exact hpiv1
        · exact hRP2 q (by omega) (by omega)
      by_cases hpl : (p : Int) < l
      · exact hbelz p q hpl (by omega) hqlen
      · exact hN _ _ _ (hRP1 p (by omega) (by omega)) hzq

section EngineLemmas

variable {E : Type}

/-- Safety and permutation facts for the selection engine, for an arbitrary
comparison function: inside the slice the engine never raises an
out-of-range access, and on success it permutes the slice. -/
theorem frFunc_safe (d : E) (sp : Int → Int → Int → Int × Int)
    (less : E → E → Bool) :
    ∀ (fl : Nat) (x : List E) (l r k : Int),
    0 ≤ l → r < (x.length : Int) → 0 ≤ k → k < (x.length : Int) →
    frFunc sp less fl x l r k ≠ .error .oob ∧
    (∀ y, frFunc sp less fl x l r k = .ok y → y.length = x.length ∧ y ~ x) := by
  intro fl
  induction fl with
  | zero =>
    intro x l r k _ _ _ _
    have h0 : frFunc sp less 0 x l r k = Except.error Err.fuel := rfl
    rw [h0]
    exact ⟨by simp, fun y hy => by cases hy⟩
  | succ fl ih =>
    intro x l r k h0l hrlen h0k hklen
    rw [frFunc]
    by_cases hrl : r > l
    · rw [if_pos hrl]
      by_cases h600 : r - l > 600
      · rw [if_pos h600]
        obtain ⟨hnoob, hok⟩ := ih x (maxI l (sp l r k).1) (minI r (sp l r k).2) k
          (by unfold maxI; split <;> omega)
          (by unfold minI; split <;> omega)
          h0k hklen
        cases hsub : frFunc sp less fl x (maxI l (sp l r k).1)
            (minI r (sp l r k).2) k with
        | error err =>
          rw [hsub] at hnoob
          dsimp only
          refine ⟨?_, fun y hy => by cases hy⟩
          intro hcontra
          injection hcontra with herr
          rw [herr] at hnoob
          exact hnoob rfl
        | ok x1 =>
          obtain ⟨hlen1, hperm1⟩ := hok x1 hsub
          dsimp only
          obtain ⟨x2, jst, hrd, hlen2, hperm2, h0jst, hjstr⟩ :=
            frRound_safe d less x1 l r k h0l hrl (by rw [hlen1]; omega) h0k
              (by rw [hlen1]; omega)
          rw [hrd]
          dsimp only
          obtain ⟨hnoob2, hok2⟩ := ih x2 (if jst ≤ k then jst + 1 else l)
            (if k ≤ jst then jst - 1 else r) k
            (by split <;> omega)
            (by rw [hlen2, hlen1]; split <;> omega)
            h0k (by rw [hlen2, hlen1]; omega)
          refine ⟨hnoob2, fun y hy => ?_⟩
          obtain ⟨ha, hb⟩ := hok2 y hy
          exact ⟨by omega, hb.trans (hperm2.trans hperm1)⟩
      · rw [if_neg h600]
        dsimp only
        obtain ⟨x2, jst, hrd, hlen2, hperm2, h0jst, hjstr⟩ :=
          frRound_safe d less x l r k h0l hrl hrlen h0k hklen
        rw [hrd]
        dsimp only
        obtain ⟨hnoob2, hok2⟩ := ih x2 (if jst ≤ k then jst + 1 else l)
          (if k ≤ jst then jst - 1 else r) k
          (by split <;> omega)
          (by rw [hlen2]; split <;> omega)
          h0k (by rw [hlen2]; omega)
        refine ⟨hnoob2, fun y hy => ?_⟩
        obtain ⟨ha, hb⟩ := hok2 y hy
        exact ⟨by omega, hb.trans hperm2⟩
    · rw [if_neg hrl]
      exact ⟨by simp, fun y hy => by cases hy; exact ⟨rfl, List.Perm.refl x⟩⟩

/-- Frame property of the selection engine under an asymmetric comparison:
positions outside `[min l k, max r k]` are untouched. -/
theorem frFunc_frame (d : E) (sp : Int → Int → Int → Int × Int)
    (less : E → E → Bool) (hA : Asymm less) :
    ∀ (fl : Nat) (x y : List E) (l r k : Int),
    0 ≤ l → r < (x.length : Int) → 0 ≤ k → k < (x.length : Int) →
    frFunc sp less fl x l r k = .ok y →
    ∀ p : Nat, ((p : Int) < l ∧ (p : Int) < k) ∨ (r < (p : Int) ∧ k < (p : Int)) →
      y.getD p d = x.getD p d := by
  intro fl
  induction fl with
  | zero =>
    intro x y l r k _ _ _ _ h
    rw [show frFunc sp less 0 x l r k = Except.error Err.fuel from rfl] at h
    cases h
  | succ fl ih =>
    intro x y l r k h0l hrlen h0k hklen hrun p hp
    rw [frFunc] at hrun
    by_cases hrl : r > l
    · rw [if_pos hrl] at hrun
      by_cases h600 : r - l > 600
      · rw [if_pos h600] at hrun
        cases hsub : frFunc sp less fl x (maxI l (sp l r k).1)
            (minI r (sp l r k).2) k with
        | error err =>
          rw [hsub] at hrun
          simp at hrun
        | ok x1 =>
          rw [hsub] at hrun
          dsimp only at hrun
          obtain ⟨hlen1, hperm1⟩ :=
            (frFunc_safe d sp less fl x (maxI l (sp l r k).1)
              (minI r (sp l r k).2) k (by unfold maxI; split <;> omega)
              (by unfold minI; split <;> omega) h0k hklen).2 x1 hsub
          have hfr1 : x1.getD p d = x.getD p d := by
            refine ih x x1 _ _ k (by unfold maxI; split <;> omega)
              (by unfold minI; split <;> omega) h0k hklen hsub p ?_
            rcases hp with ⟨h1, h2⟩ | ⟨h1, h2⟩
            · exact Or.inl ⟨by unfold maxI; split <;> omega, h2⟩
            · exact Or.inr ⟨by unfold minI; split <;> omega, h2⟩
          obtain ⟨x2, jst, hrd, hlen2, hperm2, hljst, hjstr, hfr2, _, _, _, _⟩ :=
            frRound_inv d less hA x1 l r k h0l hrl (by rw [hlen1]; omega) h0k
              (by rw [hlen1]; omega)
          rw [hrd] at hrun
          dsimp only at hrun
          have hfr3 : y.getD p d = x2.getD p d := by
            refine ih x2 y _ _ k (by split <;> omega)
              (by rw [hlen2, hlen1]; split <;> omega) h0k
              (by rw [hlen2, hlen1]; omega) hrun p ?_
            rcases hp with ⟨h1, h2⟩ | ⟨h1, h2⟩
            · exact Or.inl ⟨by split <;> omega, h2⟩
            · exact Or.inr ⟨by split <;> omega, h2⟩
          rw [hfr3, hfr2 p (by omega) (by omega), hfr1]
      · rw [if_neg h600] at hrun
        dsimp only at hrun
        obtain ⟨x2, jst, hrd, hlen2, hperm2, hljst, hjstr, hfr2, _, _, _, _⟩ :=
          frRound_inv d less hA x l r k h0l hrl hrlen h0k hklen
        rw [hrd] at hrun
        dsimp only at hrun
        have hfr3 : y.getD p d = x2.getD p d := by
          refine ih x2 y _ _ k (by split <;> omega)
            (by rw [hlen2]; split <;> omega) h0k (by rw [hlen2]; omega) hrun p ?_
          rcases hp with ⟨h1, h2⟩ | ⟨h1, h2⟩
          · exact Or.inl ⟨by split <;> omega, h2⟩
          · exact Or.inr ⟨by split <;> omega, h2⟩
        rw [hfr3, hfr2 p (by omega) (by omega)]
    · rw [if_neg hrl] at hrun
      injection hrun with hxy
      rw [hxy]

/-- More fuel can only turn a fuel error into the same success. -/
theorem frFunc_mono (sp : Int → Int → Int → Int × Int) {E2 : Type}
    (less : E2 → E2 → Bool) :
    ∀ (fl fl2 : Nat) (x y : List E2) (l r k : Int), fl ≤ fl2 →
    frFunc sp less fl x l r k = .ok y → frFunc sp less fl2 x l r k = .ok y := by
  intro fl
  induction fl with
  | zero =>
    intro fl2 x y l r k _ h
    rw [show frFunc sp less 0 x l r k = Except.error Err.fuel from rfl] at h
    cases h
  | succ fl ih =>
    intro fl2 x y l r k hle h
    obtain ⟨fl2p, rfl⟩ : ∃ m, fl2 = m + 1 := ⟨fl2 - 1, by omega⟩
    rw [frFunc] at h ⊢
    by_cases hrl : r > l
    · rw [if_pos hrl] at h ⊢
      by_cases h600 : r - l > 600
      · rw [if_pos h600] at h ⊢
        cases hsub : frFunc sp less fl x (maxI l (sp l r k).1)
            (minI r (sp l r k).2) k with
        | error err =>
          rw [hsub] at h
          simp at h
        | ok x1 =>
          rw [hsub] at h
          rw [ih fl2p x x1 _ _ _ (by omega) hsub]
          dsimp only at h ⊢
          cases hrd : frRound less x1 l r k with
          | error err =>
            rw [hrd] at h
            simp at h
          | ok pr =>
            obtain ⟨x2, jst⟩ := pr
            rw [hrd] at h
            dsimp only at h
            exact ih fl2p x2 y _ _ _ (by omega) h
      · rw [if_neg h600] at h ⊢
        dsimp only at h ⊢
        cases hrd : frRound less x l r k with
        | error err =>
          rw [hrd] at h
          simp at h
        | ok pr =>
          obtain ⟨x2, jst⟩ := pr
          rw [hrd] at h
          dsimp only at h
          exact ih fl2p x2 y _ _ _ (by omega) h
    · rw [if_neg hrl] at h ⊢
      exact h

/-- Termination of the selection engine: under an asymmetric comparison,
and for any sampler whose clamped sample window strictly shrinks (as the
floating-point formulas of the source are designed to ensure), the step
budget `(r - l).toNat + 1` suffices: the run ends in a result, not in a
budget or bounds error. -/
theorem frFunc_total (d : E) (sp : Int → Int → Int → Int × Int)
    (less : E → E → Bool) (hA : Asymm less)
    (hsp : ∀ l r k : Int, 600 < r - l →
      minI r (sp l r k).2 - maxI l (sp l r k).1 < r - l) :
    ∀ (w : Nat) (x : List E) (l r k : Int), (r - l).toNat ≤ w →
    0 ≤ l → r < (x.length : Int) → 0 ≤ k → k < (x.length : Int) →
    ∃ y, frFunc sp less ((r - l).toNat + 1) x l r k = .ok y := by
  intro w
  induction w with
  | zero =>
    intro x l r k hw h0l hrlen h0k hklen
    have hrl : ¬ (r > l) := by omega
    refine ⟨x, ?_⟩
    have h1 : (r - l).toNat = 0 := by omega
    rw [h1, frFunc, if_neg hrl]
  | succ w ih =>
    intro x l r k hw h0l hrlen h0k hklen
    by_cases hrl : r > l
    · rw [frFunc, if_pos hrl]
      have hx1 : ∃ x1, (if r - l > 600 then
          frFunc sp less ((r - l).toNat) x (maxI l (sp l r k).1)
            (minI r (sp l r k).2) k
          else Except.ok x) = Except.ok x1 ∧ x1.length = x.length ∧ x1 ~ x := by
        by_cases h600 : r - l > 600
        · rw [if_pos h600]
          obtain ⟨x1, hx1⟩ := ih x (maxI l (sp l r k).1) (minI r (sp l r k).2) k
            (by have := hsp l r k (by omega); omega)
            (by unfold maxI; split <;> omega)
            (by unfold minI; split <;> omega) h0k hklen
          have hmono := frFunc_mono sp less _ ((r - l).toNat) x x1
            (maxI l (sp l r k).1) (minI r (sp l r k).2) k
            (by have := hsp l r k (by omega); omega) hx1
          refine ⟨x1, hmono, ?_⟩
          exact (frFunc_safe d sp less _ x _ _ k (by unfold maxI; split <;> omega)
            (by unfold minI; split <;> omega) h0k hklen).2 x1 hmono
        · rw [if_neg h600]
          exact ⟨x, rfl, rfl, List.Perm.refl x⟩
      obtain ⟨x1, hx1eq, hlen1, hperm1⟩ := hx1
      rw [hx1eq]
      dsimp only
      obtain ⟨x2, jst, hrd, hlen2, hperm2, hljst, hjstr, -, -, -, -, -⟩ :=
        frRound_inv d less hA x1 l r k h0l hrl (by rw [hlen1]; omega) h0k
          (by rw [hlen1]; omega)
      rw [hrd]
      dsimp only
      have hwin : ((if k ≤ jst then jst - 1 else r) -
          (if jst ≤ k then jst + 1 else l)).toNat < (r - l).toNat := by
        by_cases hjk : jst ≤ k
        · by_cases hkj : k ≤ jst
          · rw [if_pos hkj, if_pos hjk]; omega
          · rw [if_neg hkj, if_pos hjk]; omega
        · rw [if_pos (by omega : k ≤ jst), if_neg hjk]; omega
      obtain ⟨y, hy⟩ := ih x2 (if jst ≤ k then jst + 1 else l)
        (if k ≤ jst then jst - 1 else r) k (by omega)
        (by split <;> omega)
        (by rw [hlen2, hlen1]; split <;> omega)
        h0k (by rw [hlen2, hlen1]; omega)
      exact ⟨y, frFunc_mono sp less _ ((r - l).toNat) x2 y _ _ k (by omega) hy⟩
    · refine ⟨x, ?_⟩
      rw [frFunc, if_neg hrl]

/-- Main partition theorem for the selection engine: under a strict weak
order, starting from a state partitioned at `l` and just above `r` with the
target `k` inside the window (or the window already collapsed around `k`),
a successful run leaves the slice partitioned around `k`. -/
theorem frFunc_partition (d : E) (sp : Int → Int → Int → Int × Int)
    (less : E → E → Bool) (hA : Asymm less) (hN : NegTrans less) :
    ∀ (fl : Nat) (x y : List E) (l r k : Int),
    0 ≤ l → r ≤ (x.length : Int) - 1 → 0 ≤ k → k < (x.length : Int) →
    ((l ≤ k ∧ k ≤ r) ∨ (l = k + 1 ∧ r = k - 1)) →
    belowP less d x l → aboveP less d x r →
    frFunc sp less fl x l r k = .ok y →
    partitionAt less d y k := by
  intro fl
  induction fl with
  | zero =>
    intro x y l r k _ _ _ _ _ _ _ h
    rw [show frFunc sp less 0 x l r k = Except.error Err.fuel from rfl] at h
    cases h
  | succ fl ih =>
    intro x y l r k h0l hrlen h0k hklen hinv hbel habo hrun
    rw [frFunc] at hrun
    by_cases hrl : r > l
    · rw [if_pos hrl] at hrun
      have hlkr : l ≤ k ∧ k ≤ r := by
        rcases hinv with h | h
        · exact h
        · omega
      -- unified handling of the two sampling branches
      suffices hstep : ∀ x1 : List E, x1.length = x.length → x1 ~ x →
          belowP less d x1 l → aboveP less d x1 r →
          (match frRound less x1 l r k with
           | Except.error e => Except.error e
           | Except.ok (x2, j) =>
               frFunc sp less fl x2 (if j ≤ k then j + 1 else l)
                 (if k ≤ j then j - 1 else r) k) = Except.ok y →
          partitionAt less d y k by
        by_cases h600 : r - l > 600
        · rw [if_pos h600] at hrun
          cases hsub : frFunc sp less fl x (maxI l (sp l r k).1)
              (minI r (sp l r k).2) k with
          | error err =>
            rw [hsub] at hrun
            simp at hrun
          | ok x1 =>
            rw [hsub] at hrun
            dsimp only at hrun
            obtain ⟨hlen1, hperm1⟩ :=
              (frFunc_safe d sp less fl x (maxI l (sp l r k).1)
                (minI r (sp l r k).2) k (by unfold maxI; split <;> omega)
                (by unfold minI; split <;> omega) h0k hklen).2 x1 hsub
            have hfr1 : ∀ p : Nat,
                ((p : Int) < l ∧ (p : Int) < k) ∨ (r < (p : Int) ∧ k < (p : Int)) →
                x1.getD p d = x.getD p d := by
              intro p hp
              refine frFunc_frame d sp less hA fl x x1 _ _ k
                (by unfold maxI; split <;> omega)
                (by unfold minI; split <;> omega) h0k hklen hsub p ?_
              rcases hp with ⟨h1, h2⟩ | ⟨h1, h2⟩
              · exact Or.inl ⟨by unfold maxI; split <;> omega, h2⟩
              · exact Or.inr ⟨by unfold minI; split <;> omega, h2⟩
            refine hstep x1 hlen1 hperm1 ?_ ?_ hrun
            · exact belowP_preserved d less hlen1 hperm1
                (fun p hp => hfr1 p (Or.inl ⟨hp, by omega⟩)) hbel
            · exact aboveP_preserved d less hlen1 hperm1
                (fun p hp => hfr1 p (Or.inr ⟨hp, by omega⟩)) habo
        · rw [if_neg h600] at hrun
          dsimp only at hrun
          exact hstep x rfl (List.Perm.refl x) hbel habo hrun
      intro x1 hlen1 hperm1 hbel1 habo1 hrun1
      obtain ⟨x2, jst, hrd, hlen2, hperm2, hljst, hjstr, hfr2, hpiv1, hpiv2,
          hRP1, hRP2⟩ :=
        frRound_inv d less hA x1 l r k h0l hrl (by rw [hlen1]; omega) h0k
          (by rw [hlen1]; omega)
      rw [hrd] at hrun1
      dsimp only at hrun1
      obtain ⟨hbel2, habo2, hbelj, haboj⟩ :=
        round_below_above d less hN h0l hlkr.1 hlkr.2 hlen2 hperm2 hljst hjstr
          hfr2 hpiv1 hpiv2 hRP1 hRP2 hbel1 habo1
      refine ih x2 y (if jst ≤ k then jst + 1 else l)
        (if k ≤ jst then jst - 1 else r) k (by split <;> omega)
        (by rw [hlen2, hlen1]; split <;> omega) h0k
        (by rw [hlen2, hlen1]; omega) ?_ ?_ ?_ hrun1
      · by_cases hjk : jst ≤ k
        · by_cases hkj : k ≤ jst
          · right
            rw [if_pos hjk, if_pos hkj]
            omega
          · left
            rw [if_pos hjk, if_neg hkj]
            omega
        · left
          rw [if_neg hjk, if_pos (by omega : k ≤ jst)]
          omega
      · split
        · exact hbelj
        · exact hbel2
      · split
        · exact haboj
        · exact habo2
    · rw [if_neg hrl] at hrun
      injection hrun with hxy
      subst hxy
      rcases hinv with ⟨hlk, hkr⟩ | ⟨hl, hr⟩
      · constructor
        · intro p hp
          exact hbel p k.toNat (by omega) (by omega) (by omega)
        · intro q hq hqlen
          exact habo k.toNat q (by omega) (by omega) hqlen
      · constructor
        · intro p hp
          exact habo p k.toNat (by omega) (by omega) (by omega)
        · intro q hq hqlen
          exact hbel k.toNat q (by omega) (by omega) hqlen

end EngineLemmas

section RankLemmas

variable {E : Type}

/-- A predicate false on every position from `m` on holds on at most `m`
elements. -/
theorem countP_le_of_suffix (d : E) (pb : E → Bool) {y : List E} {m : Nat}
    (h : ∀ q : Nat, m ≤ q → q < y.length → pb (y.getD q d) = false) :
    y.countP pb ≤ m := by
  have hsplit : y.countP pb = (y.take m).countP pb + (y.drop m).countP pb := by
    rw [← List.countP_append, List.take_append_drop]
  have h0 : (y.drop m).countP pb = 0 := by
    rw [List.countP_eq_zero]
    intro a ha
    obtain ⟨idx, hidx, hval⟩ := List.getElem_of_mem ha
    have hlen : m + idx < y.length := by simp at hidx; omega
    have : a = y.getD (m + idx) d := by
      rw [← hval, List.getElem_drop, ← getD_lt d y hlen]
    rw [this, h (m + idx) (by omega) hlen]
    simp
  have h1 : (y.take m).countP pb ≤ m := by
    have hl := List.countP_le_length pb (l := y.take m)
    simp at hl
    omega
  omega

/-- A predicate true on every position up to `m` holds on more than `m`
elements. -/
theorem countP_ge_of_prefix (d : E) (pb : E → Bool) {y : List E} {m : Nat}
    (hm : m < y.length)
    (h : ∀ p : Nat, p ≤ m → pb (y.getD p d) = true) :
    m + 1 ≤ y.countP pb := by
  have hsplit : y.countP pb = (y.take (m+1)).countP pb + (y.drop (m+1)).countP pb := by
    rw [← List.countP_append, List.take_append_drop]
  have hfull : (y.take (m+1)).countP pb = (y.take (m+1)).length := by
    rw [List.countP_eq_length]
    intro a ha
    obtain ⟨idx, hidx, hval⟩ := List.getElem_of_mem ha
    have hidx2 : idx ≤ m ∧ idx < y.length := by simp at hidx; omega
    have : a = y.getD idx d := by
      rw [← hval, List.getElem_take, ← getD_lt d y hidx2.2]
    rw [this]
    exact h idx hidx2.1
  have hlen : (y.take (m+1)).length = m + 1 := by simp; omega
  omega

/-- With a strict weak order, a partition around index `m` pins the element
there up to order-equivalence: it is equivalent to the element at index `m`
of any `less`-sorted list with the same multiset. -/
theorem sorted_rank (d : E) (less : E → E → Bool) (hA : Asymm less)
    (hN : NegTrans less) {y s : List E} {m : Nat}
    (hperm : s ~ y) (hm : m < y.length)
    (hsort : s.Pairwise (fun a b => less b a = false))
    (h1 : ∀ p : Nat, p < m → less (y.getD m d) (y.getD p d) = false)
    (h2 : ∀ q : Nat, m < q → q < y.length → less (y.getD q d) (y.getD m d) = false) :
    less (y.getD m d) (s.getD m d) = false ∧
    less (s.getD m d) (y.getD m d) = false := by
  have hslen : s.length = y.length := hperm.length_eq
  have hms : m < s.length := by omega
  have hpair := List.pairwise_iff_getElem.mp hsort
  constructor
  · by_contra hc
    rw [Bool.not_eq_false] at hc
    -- strictly more than m elements of y are less than s[m], but at most m
    -- elements of s are: contradiction with the permutation
    have hyge : m + 1 ≤ y.countP (fun v => less v (s.getD m d)) := by
      refine countP_ge_of_prefix d _ hm ?_
      intro p hp
      by_cases hpm : p = m
      · rw [hpm]; exact hc
      · by_contra hf
        rw [Bool.not_eq_true] at hf
        have := hN (s.getD m d) (y.getD p d) (y.getD m d) hf (h1 p (by omega))
        rw [this] at hc
        exact Bool.false_ne_true hc
    have hsle : s.countP (fun v => less v (s.getD m d)) ≤ m := by
      refine countP_le_of_suffix d _ ?_
      intro q hq hqlen
      by_cases hqm : q = m
      · rw [hqm]; exact asymm_irrefl hA _
      · have := hpair m q hms hqlen (by omega)
        rw [getD_lt d s hms, getD_lt d s hqlen]
        exact this
    have := hperm.countP_eq (fun v => less v (s.getD m d))
    omega
  · by_contra hc
    rw [Bool.not_eq_false] at hc
    have hsge : m + 1 ≤ s.countP (fun v => less v (y.getD m d)) := by
      refine countP_ge_of_prefix d _ hms ?_
      intro p hp
      by_cases hpm : p = m
      · rw [hpm]; exact hc
      · by_contra hf
        rw [Bool.not_eq_true] at hf
        have hsp : less (s.getD m d) (s.getD p d) = false := by
          have := hpair p m (by omega) hms (by omega)
          rw [getD_lt d s hms, getD_lt d s (by omega)]
          exact this
        have := hN (y.getD m d) (s.getD p d) (s.getD m d) hf hsp
        rw [this] at hc
        exact Bool.false_ne_true hc
    have hyle : y.countP (fun v => less v (y.getD m d)) ≤ m := by
      refine countP_le_of_suffix d _ ?_
      intro q hq hqlen
      by_cases hqm : q = m
      · rw [hqm]; exact asymm_irrefl hA _
      · exact h2 q (by omega) hqlen
    have := hperm.countP_eq (fun v => less v (y.getD m d))
    omega

end RankLemmas

section OrdEquiv

variable {E : Type} [LinearOrder E]

/-- The native strict comparison is asymmetric. -/
theorem ltb_asymm : Asymm (ltb (E := E)) := by
  intro a b h
  simp only [ltb, decide_eq_true_eq] at h
  simp only [ltb, decide_eq_false_iff_not]
  exact not_lt.mpr h.le

/-- The native strict comparison is negatively transitive. -/
theorem ltb_negtrans : NegTrans (ltb (E := E)) := by
  intro a b c h1 h2
  simp only [ltb, decide_eq_false_iff_not, not_lt] at h1 h2 ⊢
  exact le_trans h1 h2

/-- `slices.Sort`'s order is the non-strict form of the native strict one. -/
theorem leb_eq_not_ltb : (leb (E := E)) = fun a b => !ltb b a := by
  funext a b
  simp only [leb, ltb]
  by_cases h : a ≤ b
  · simp [h, not_lt.mpr h]
  · simp [h, lt_of_not_le h]

/-- On a natively ordered type, the equality test `x[left] == t` of
`floydRivest` agrees with the neither-less-than test of `floydRivestFunc`,
so the two round bodies compute identically. -/
theorem frRoundOrd_eq (x : List E) (l r k : Int) :
    frRoundOrd x l r k = frRound ltb x l r k := by
  unfold frRoundOrd frRound
  cases geti x k with
  | error e => rfl
  | ok t =>
    dsimp only
    cases swapi x l k with
    | error e => rfl
    | ok x1 =>
      dsimp only
      cases geti x1 r with
      | error e => rfl
      | ok vr =>
        dsimp only
        cases (if ltb t vr then swapi x1 l r else Except.ok x1) with
        | error e => rfl
        | ok x2 =>
          dsimp only
          cases partLoop ltb t ((r - l).toNat + 1) x2 l r with
          | error e => rfl
          | ok res =>
            obtain ⟨x3, i, j⟩ := res
            dsimp only
            cases geti x3 l with
            | error e => rfl
            | ok vl =>
              dsimp only
              by_cases hv : vl = t
              · rw [if_pos hv, if_pos ?_]
                subst hv
                simp [ltb]
              · rw [if_neg hv, if_neg ?_]
                rcases lt_or_gt_of_ne hv with h | h
                · simp [ltb, h, not_lt.mpr h.le]
                · simp [ltb, h, not_lt.mpr h.le]

/-- `floydRivest` computes exactly what `floydRivestFunc` computes when the
ordering callback is the native strict comparison. -/
theorem frOrd_eq (sp : Int → Int → Int → Int × Int) :
    ∀ (fl : Nat) (x : List E) (l r k : Int),
    frOrd sp fl x l r k = frFunc sp ltb fl x l r k := by
  intro fl
  induction fl with
  | zero => intro x l r k; rfl
  | succ fl ih =>
    intro x l r k
    rw [frOrd, frFunc]
    by_cases hrl : r > l
    · rw [if_pos hrl, if_pos hrl]
      have hsub : (if r - l > 600 then
          frOrd sp fl x (maxI l (sp l r k).1) (minI r (sp l r k).2) k
          else Except.ok x) = (if r - l > 600 then
          frFunc sp ltb fl x (maxI l (sp l r k).1) (minI r (sp l r k).2) k
          else Except.ok x) := by
        by_cases h600 : r - l > 600
        · rw [if_pos h600, if_pos h600, ih]
        · rw [if_neg h600, if_neg h600]
      rw [hsub]
      cases (if r - l > 600 then
          frFunc sp ltb fl x (maxI l (sp l r k).1) (minI r (sp l r k).2) k
          else Except.ok x) with
      | error e => rfl
      | ok x1 =>
        dsimp only
        rw [frRoundOrd_eq]
        cases frRound ltb x1 l r k with
        | error e => rfl
        | ok res =>
          obtain ⟨x2, j⟩ := res
          dsimp only
          exact ih x2 _ _ k
    · rw [if_neg hrl, if_neg hrl]

end OrdEquiv

section WrapperLemmas

variable {E : Type}

/-- Sorting a prefix in place permutes the slice. -/
theorem sortPref_perm (le : E → E → Bool) (m : Nat) (x : List E) :
    sortPref le m x ~ x := by
  unfold sortPref
  exact ((List.mergeSort_perm _ le).append_right _).trans
    (List.Perm.of_eq (List.take_append_drop m x))

theorem sortPref_length (le : E → E → Bool) (m : Nat) (x : List E) :
    (sortPref le m x).length = x.length :=
  (sortPref_perm le m x).length_eq

/-- For an in-range `k`, `TopKFunc` is exactly one engine run. -/
theorem TopKFunc_run (sp : Int → Int → Int → Int × Int) (less : E → E → Bool)
    (fl : Nat) {x y : List E} {k : Int}
    (hk1 : 1 ≤ k) (hk2 : k ≤ (x.length : Int))
    (h : TopKFunc sp less fl x k = .ok y) :
    frFunc sp less fl x 0 ((x.length : Int) - 1) (k - 1) = .ok y := by
  unfold TopKFunc at h
  have hmin : minI k (x.length : Int) = k := by unfold minI; split <;> omega
  rw [hmin] at h
  rw [if_pos (by omega : k > 0)] at h
  exact h

/-- A successful `TopKFunc` run for an in-range `k` partitions the slice
around index `k - 1`. -/
theorem TopKFunc_partition (d : E) (sp : Int → Int → Int → Int × Int)
    (less : E → E → Bool) (hA : Asymm less) (hN : NegTrans less)
    (fl : Nat) {x y : List E} {k : Int}
    (hk1 : 1 ≤ k) (hk2 : k ≤ (x.length : Int))
    (h : TopKFunc sp less fl x k = .ok y) :
    partitionAt less d y (k - 1) := by
  refine frFunc_partition d sp less hA hN fl x y 0 ((x.length : Int) - 1) (k - 1)
    (le_refl 0) (by omega) (by omega) (by omega) (Or.inl ⟨by omega, by omega⟩)
    ?_ ?_ (TopKFunc_run sp less fl hk1 hk2 h)
  · intro p q hp hq hqlen
    omega
  · intro p q hp hq hqlen
    omega

/-- `TopKFunc` permutes the slice, for every `k`. -/
theorem TopKFunc_perm (sp : Int → Int → Int → Int × Int) (less : E → E → Bool)
    (fl : Nat) {x y : List E} {k : Int}
    (h : TopKFunc sp less fl x k = .ok y) : y ~ x ∧ y.length = x.length := by
  unfold TopKFunc at h
  by_cases hpos : minI k (x.length : Int) > 0
  · rw [if_pos hpos] at h
    have hlen : 1 ≤ x.length := by
      by_contra hc
      push_neg at hc
      unfold minI at hpos
      interval_cases hl : x.length
      split at hpos <;> omega
    cases x with
    | nil => simp at hlen
    | cons a tl =>
      have hmle : minI k ((a :: tl).length : Int) ≤ ((a :: tl).length : Int) := by
        unfold minI; split <;> omega
      obtain ⟨hp, hl⟩ := (frFunc_safe a sp less fl (a :: tl) 0
        (((a :: tl).length : Int) - 1) (minI k ((a :: tl).length : Int) - 1)
        (le_refl 0) (by omega) (by omega) (by omega)).2 y h
      exact ⟨hl, hp⟩
  · rw [if_neg hpos] at h
    injection h with hxy
    rw [← hxy]
    exact ⟨List.Perm.refl x, rfl⟩

/-- `PSortFunc` permutes the slice, for every `k`. -/
theorem PSortFunc_perm (sp : Int → Int → Int → Int × Int) (less : E → E → Bool)
    (fl : Nat) {x y : List E} {k : Int}
    (h : PSortFunc sp less fl x k = .ok y) : y ~ x ∧ y.length = x.length := by
  unfold PSortFunc at h
  by_cases hpos : minI k (x.length : Int) > 0
  · rw [if_pos hpos] at h
    have hlen : 1 ≤ x.length := by
      by_contra hc
      push_neg at hc
      unfold minI at hpos
      interval_cases hl : x.length
      split at hpos <;> omega
    cases x with
    | nil => simp at hlen
    | cons a tl =>
      cases hfr : frFunc sp less fl (a :: tl) 0 (((a :: tl).length : Int) - 1)
          (minI k ((a :: tl).length : Int) - 1) with
      | error err =>
        rw [hfr] at h
        simp at h
      | ok w =>
        rw [hfr] at h
        dsimp only at h
        injection h with hy
        have hmle : minI k ((a :: tl).length : Int) ≤ ((a :: tl).length : Int) := by
          unfold minI; split <;> omega
        obtain ⟨hwlen, hwperm⟩ := (frFunc_safe a sp less fl (a :: tl) 0
          (((a :: tl).length : Int) - 1) (minI k ((a :: tl).length : Int) - 1)
          (le_refl 0) (by omega) (by omega) (by omega)).2 w hfr
        rw [← hy]
        constructor
        · exact (sortPref_perm _ _ w).trans hwperm
        · rw [sortPref_length]
          omega
  · rw [if_neg hpos] at h
    injection h with hxy
    rw [← hxy]
    exact ⟨List.Perm.refl x, rfl⟩

theorem getD_append_left (d : E) {l1 l2 : List E} {n : Nat} (h : n < l1.length) :
    (l1 ++ l2).getD n d = l1.getD n d := by
  simp [List.getD_eq_getElem?_getD, List.getElem?_append_left h]

theorem getD_append_right (d : E) {l1 l2 : List E} {n : Nat} (h : l1.length ≤ n) :
    (l1 ++ l2).getD n d = l2.getD (n - l1.length) d := by
  simp [List.getD_eq_getElem?_getD, List.getElem?_append_right h]

theorem getD_drop (d : E) (l : List E) (m i : Nat) :
    (l.drop m).getD i d = l.getD (m + i) d := by
  simp [List.getD_eq_getElem?_getD, List.getElem?_drop]

/-- The `mergeSort` of any list by the non-strict form of a strict weak
order is sorted in the `less b a = false` sense. -/
theorem mergeSort_sorted_swo (less : E → E → Bool) (hA : Asymm less)
    (hN : NegTrans less) (l : List E) :
    (l.mergeSort (fun a b => !less b a)).Pairwise (fun a b => less b a = false) := by
  have h := @List.sorted_mergeSort _ (fun a b => !less b a)
    (fun a b c h1 h2 => by
      simp only [Bool.not_eq_true'] at h1 h2 ⊢
      exact hN _ _ _ h1 h2)
    (fun a b => by
      by_cases h : less b a = true
      · have := hA _ _ h
        simp [this]
      · simp only [Bool.not_eq_true] at h
        simp [h])
    l
  exact h.imp (fun hab => by simpa using hab)

/-- A successful in-range `TopKFunc` run pins the element at `k - 1` up to
order-equivalence with position `k - 1` of any sorted copy. -/
theorem TopKFunc_kth (d : E) (sp : Int → Int → Int → Int × Int)
    (less : E → E → Bool) (hA : Asymm less) (hN : NegTrans less)
    (fl : Nat) {x y s : List E} {k : Int}
    (hk1 : 1 ≤ k) (hk2 : k ≤ (x.length : Int))
    (h : TopKFunc sp less fl x k = .ok y)
    (hs : s ~ x) (hsort : s.Pairwise (fun a b => less b a = false)) :
    EquivL less (y.getD (k-1).toNat d) (s.getD (k-1).toNat d) := by
  obtain ⟨hyx, hylen⟩ := TopKFunc_perm sp less fl h
  obtain ⟨hp1, hp2⟩ := TopKFunc_partition d sp less hA hN fl hk1 hk2 h
  have hm : (k-1).toNat < y.length := by omega
  have hrank := sorted_rank d less hA hN (hs.trans hyx.symm) hm hsort
    (fun p hp => hp1 p (by omega))
    (fun q hq hqlen => hp2 q (by omega) hqlen)
  exact ⟨hrank.1, hrank.2⟩

/-- Correctness of `SortFunc` for an in-range `k`: the prefix `[0, k)` is
fully sorted (every earlier element is not greater than every later one,
including position `k - 1`), and every element from position `k` on is not
less than the element at `k - 1`. -/
theorem PSortFunc_sorted (d : E) (sp : Int → Int → Int → Int × Int)
    (less : E → E → Bool) (hA : Asymm less) (hN : NegTrans less)
    (fl : Nat) {x y : List E} {k : Int}
    (hk1 : 1 ≤ k) (hk2 : k ≤ (x.length : Int))
    (h : PSortFunc sp less fl x k = .ok y) :
    (∀ p q : Nat, p ≤ q → (q : Int) ≤ k - 1 →
      less (y.getD q d) (y.getD p d) = false) ∧
    (∀ q : Nat, k ≤ (q : Int) → q < y.length →
      less (y.getD q d) (y.getD (k-1).toNat d) = false) := by
  unfold PSortFunc at h
  have hmin : minI k (x.length : Int) = k := by unfold minI; split <;> omega
  rw [hmin, if_pos (by omega : k > 0)] at h
  cases hfr : frFunc sp less fl x 0 ((x.length : Int) - 1) (k - 1) with
  | error err =>
    rw [hfr] at h
    simp at h
  | ok w =>
    rw [hfr] at h
    dsimp only at h
    injection h with hy
    have hTK : TopKFunc sp less fl x k = .ok w := by
      unfold TopKFunc
      rw [hmin, if_pos (by omega : k > 0)]
      exact hfr
    obtain ⟨hwx, hwlen⟩ := TopKFunc_perm sp less fl hTK
    obtain ⟨hp1, hp2⟩ := TopKFunc_partition d sp less hA hN fl hk1 hk2 hTK
    have hmw : (k - 1).toNat < w.length := by omega
    have hy2 : y = (w.take (k-1).toNat).mergeSort (fun a b => !less b a)
        ++ w.drop (k-1).toNat := by rw [← hy]; rfl
    have hlenS : ((w.take (k-1).toNat).mergeSort (fun a b => !less b a)).length
        = (k-1).toNat := by
      rw [List.length_mergeSort]
      simp
      omega
    have hylen : y.length = w.length := by
      rw [hy2]
      simp only [List.length_append, hlenS, List.length_drop]
      omega
    have hya : ∀ q : Nat, (k-1).toNat ≤ q → y.getD q d = w.getD q d := by
      intro q hq
      rw [hy2, getD_append_right d (by omega), hlenS, getD_drop]
      congr 1
      omega
    have hyb1 : ∀ p : Nat, p < (k-1).toNat → y.getD p d =
        ((w.take (k-1).toNat).mergeSort (fun a b => !less b a)).getD p d := by
      intro p hp
      rw [hy2, getD_append_left d (by omega)]
    have hyb2 : ∀ p : Nat, p < (k-1).toNat → ∃ p2 : Nat, p2 < (k-1).toNat ∧
        ((w.take (k-1).toNat).mergeSort (fun a b => !less b a)).getD p d =
          w.getD p2 d := by
      intro p hp
      have hmem : ((w.take (k-1).toNat).mergeSort (fun a b => !less b a)).getD p d
          ∈ w.take (k-1).toNat := by
        rw [getD_lt d _ (by omega)]
        exact (List.mergeSort_perm _ _).mem_iff.mp (List.getElem_mem (by omega))
      obtain ⟨idx, hidx, hval⟩ := List.getElem_of_mem hmem
      have hidx2 : idx < (k-1).toNat := by simp at hidx; omega
      refine ⟨idx, hidx2, ?_⟩
      rw [← hval, List.getElem_take, ← getD_lt d w (by simp at hidx; omega)]
    have hpairS := (mergeSort_sorted_swo less hA hN (w.take (k-1).toNat))
    have hpairS2 := List.pairwise_iff_getElem.mp hpairS
    constructor
    · intro p q hpq hqk
      have hqm : q ≤ (k-1).toNat := by omega
      by_cases hq1 : q < (k-1).toNat
      · by_cases hpe : p = q
        · rw [hpe]
          exact asymm_irrefl hA _
        · rw [hyb1 p (by omega), hyb1 q (by omega)]
          have := hpairS2 p q (by omega) (by omega) (by omega)
          rw [getD_lt d _ (by omega), getD_lt d _ (by omega)]
          exact this
      · have hqe : q = (k-1).toNat := by omega
        rw [hqe, hya (k-1).toNat (le_refl _)]
        by_cases hpe : p = (k-1).toNat
        · rw [hpe, hya (k-1).toNat (le_refl _)]
          exact asymm_irrefl hA _
        · obtain ⟨p2, hp2m, hval⟩ := hyb2 p (by omega)
          rw [hyb1 p (by omega), hval]
          exact hp1 p2 (by omega)
    · intro q hq hqlen
      rw [hya q (by omega), hya (k-1).toNat (le_refl _)]
      exact hp2 q (by omega) (by omega)

/-- `TopK` is `TopKFunc` with the native strict comparison. -/
theorem TopK_eq_TopKFunc {E2 : Type} [LinearOrder E2]
    (sp : Int → Int → Int → Int × Int) (fl : Nat) (x : List E2) (k : Int) :
    TopK sp fl x k = TopKFunc sp ltb fl x k := by
  unfold TopK TopKFunc
  by_cases h : minI k (x.length : Int) > 0
  · rw [if_pos h, if_pos h, frOrd_eq]
  · rw [if_neg h, if_neg h]

/-- `Sort` is `SortFunc` with the native strict comparison. -/
theorem PSort_eq_PSortFunc {E2 : Type} [LinearOrder E2]
    (sp : Int → Int → Int → Int × Int) (fl : Nat) (x : List E2) (k : Int) :
    PSort sp fl x k = PSortFunc sp ltb fl x k := by
  unfold PSort PSortFunc
  by_cases h : minI k (x.length : Int) > 0
  · rw [if_pos h, if_pos h, frOrd_eq, leb_eq_not_ltb]
  · rw [if_neg h, if_neg h]

end WrapperLemmas

section Claims

/-- C1: For every slice `x` with `len x ≥ 1` and every `k` in `[1, len x]`,
after `Sort` / `SortFunc` with a strict-weak-order `less`, the prefix
`x[0..k)` — including index `k-1` — is fully sorted ascending under `less`
(every earlier element is not greater than every later one), and every
element of `x[k..n)` is not less than `x[k-1]`. -/
theorem claim_c1 :
    (∀ (E : Type) (d : E) (sp : Int → Int → Int → Int × Int)
      (less : E → E → Bool) (fl : Nat) (x y : List E) (k : Int),
      Asymm less → NegTrans less → 1 ≤ k → k ≤ (x.length : Int) →
      PSortFunc sp less fl x k = .ok y →
      (∀ p q : Nat, p ≤ q → (q : Int) ≤ k - 1 →
        less (y.getD q d) (y.getD p d) = false) ∧
      (∀ q : Nat, k ≤ (q : Int) → q < y.length →
        less (y.getD q d) (y.getD (k-1).toNat d) = false)) ∧
    (∀ (E : Type) [inst : LinearOrder E] (d : E)
      (sp : Int → Int → Int → Int × Int) (fl : Nat) (x y : List E) (k : Int),
      1 ≤ k → k ≤ (x.length : Int) →
      PSort sp fl x k = .ok y →
      (∀ p q : Nat, p ≤ q → (q : Int) ≤ k - 1 →
        ltb (y.getD q d) (y.getD p d) = false) ∧
      (∀ q : Nat, k ≤ (q : Int) → q < y.length →
        ltb (y.getD q d) (y.getD (k-1).toNat d) = false)) := by
  constructor
  · intro E d sp less fl x y k hA hN hk1 hk2 h
    exact PSortFunc_sorted d sp less hA hN fl hk1 hk2 h
  · intro E inst d sp fl x y k hk1 hk2 h
    rw [PSort_eq_PSortFunc] at h
    exact PSortFunc_sorted d sp ltb ltb_asymm ltb_negtrans fl hk1 hk2 h

/-- Concrete instance of C1: sorting the first two of `[9,2,5,-1,4]`. -/
theorem claim_c1_witness :
    (∀ p q : Nat, p ≤ q → (q : Int) ≤ (2 : Int) - 1 →
      ltb (([-1,2,5,9,4] : List Int).getD q 0)
        (([-1,2,5,9,4] : List Int).getD p 0) = false) ∧
    (∀ q : Nat, (2 : Int) ≤ (q : Int) → q < ([-1,2,5,9,4] : List Int).length →
      ltb (([-1,2,5,9,4] : List Int).getD q 0)
        (([-1,2,5,9,4] : List Int).getD ((2:Int)-1).toNat 0) = false) :=
  claim_c1.2 Int 0 spZ 10 [9,2,5,-1,4] [-1,2,5,9,4] 2 (by decide) (by decide)
    (by rw [show PSort spZ 10 ([9,2,5,-1,4] : List Int) 2
          = Except.ok (sortPref leb 1 [-1,2,5,9,4]) from rfl]
        simp [sortPref])

/-- C2: For every slice `x` and every `k` in `[1, len x]`, after
`TopK`/`TopKFunc` with a strict-weak-order `less`, the element at `k-1` is
order-equivalent to the element at index `k-1` of any fully sorted copy of
`x`. -/
theorem claim_c2 :
    (∀ (E : Type) (d : E) (sp : Int → Int → Int → Int × Int)
      (less : E → E → Bool) (fl : Nat) (x y s : List E) (k : Int),
      Asymm less → NegTrans less → 1 ≤ k → k ≤ (x.length : Int) →
      TopKFunc sp less fl x k = .ok y →
      s ~ x → s.Pairwise (fun a b => less b a = false) →
      EquivL less (y.getD (k-1).toNat d) (s.getD (k-1).toNat d)) ∧
    (∀ (E : Type) [inst : LinearOrder E] (d : E)
      (sp : Int → Int → Int → Int × Int) (fl : Nat) (x y s : List E) (k : Int),
      1 ≤ k → k ≤ (x.length : Int) →
      TopK sp fl x k = .ok y →
      s ~ x → s.Pairwise (fun a b => ltb b a = false) →
      EquivL ltb (y.getD (k-1).toNat d) (s.getD (k-1).toNat d)) := by
  constructor
  · intro E d sp less fl x y s k hA hN hk1 hk2 h hs hsort
    exact TopKFunc_kth d sp less hA hN fl hk1 hk2 h hs hsort
  · intro E inst d sp fl x y s k hk1 hk2 h hs hsort
    rw [TopK_eq_TopKFunc] at h
    exact TopKFunc_kth d sp ltb ltb_asymm ltb_negtrans fl hk1 hk2 h hs hsort

/-- Concrete instance of C2: the third smallest of `[9,2,5,-1,4]` is `4`. -/
theorem claim_c2_witness :
    EquivL ltb (([-1,2,4,5,9] : List Int).getD ((3:Int)-1).toNat 0)
      (([-1,2,4,5,9] : List Int).getD ((3:Int)-1).toNat 0) :=
  claim_c2.2 Int 0 spZ 10 [9,2,5,-1,4] [-1,2,4,5,9] [-1,2,4,5,9] 3
    (by decide) (by decide) rfl (by decide) (by decide)

/-- C3: For every slice `x` and every `k` in `[1, len x]`, after
`TopK`/`TopKFunc` with a strict-weak-order `less`, the slice is partitioned
around index `k-1`: for `i < k-1`, `less (x at (k-1)) (x at i) = false`, and
for `j ≥ k`, `less (x at j) (x at (k-1)) = false`. -/
theorem claim_c3 :
    (∀ (E : Type) (d : E) (sp : Int → Int → Int → Int × Int)
      (less : E → E → Bool) (fl : Nat) (x y : List E) (k : Int),
      Asymm less → NegTrans less → 1 ≤ k → k ≤ (x.length : Int) →
      TopKFunc sp less fl x k = .ok y → partitionAt less d y (k - 1)) ∧
    (∀ (E : Type) [inst : LinearOrder E] (d : E)
      (sp : Int → Int → Int → Int × Int) (fl : Nat) (x y : List E) (k : Int),
      1 ≤ k → k ≤ (x.length : Int) →
      TopK sp fl x k = .ok y → partitionAt ltb d y (k - 1)) := by
  constructor
  · intro E d sp less fl x y k hA hN hk1 hk2 h
    exact TopKFunc_partition d sp less hA hN fl hk1 hk2 h
  · intro E inst d sp fl x y k hk1 hk2 h
    rw [TopK_eq_TopKFunc] at h
    exact TopKFunc_partition d sp ltb ltb_asymm ltb_negtrans fl hk1 hk2 h

/-- Concrete instance of C3 on `[9,2,5,-1,4]` with `k = 3`. -/
theorem claim_c3_witness :
    partitionAt ltb 0 ([-1,2,4,5,9] : List Int) ((3:Int) - 1) :=
  claim_c3.2 Int 0 spZ 10 [9,2,5,-1,4] [-1,2,4,5,9] 3 (by decide) (by decide) rfl

/-- C4: For every slice `x` and every integer `k` (including `k < 0` and
`k > len x`), `TopK`, `TopKFunc`, `Sort` and `SortFunc` leave the multiset
of elements unchanged: the result is a permutation of the input. -/
theorem claim_c4 :
    (∀ (E : Type) (sp : Int → Int → Int → Int × Int) (less : E → E → Bool)
      (fl : Nat) (x y : List E) (k : Int),
      TopKFunc sp less fl x k = .ok y → y ~ x) ∧
    (∀ (E : Type) [inst : LinearOrder E] (sp : Int → Int → Int → Int × Int)
      (fl : Nat) (x y : List E) (k : Int),
      TopK sp fl x k = .ok y → y ~ x) ∧
    (∀ (E : Type) (sp : Int → Int → Int → Int × Int) (less : E → E → Bool)
      (fl : Nat) (x y : List E) (k : Int),
      PSortFunc sp less fl x k = .ok y → y ~ x) ∧
    (∀ (E : Type) [inst : LinearOrder E] (sp : Int → Int → Int → Int × Int)
      (fl : Nat) (x y : List E) (k : Int),
      PSort sp fl x k = .ok y → y ~ x) := by
  refine ⟨?_, ?_, ?_, ?_⟩
  · intro E sp less fl x y k h
    exact (TopKFunc_perm sp less fl h).1
  · intro E inst sp fl x y k h
    rw [TopK_eq_TopKFunc] at h
    exact (TopKFunc_perm sp ltb fl h).1
  · intro E sp less fl x y k h
    exact (PSortFunc_perm sp less fl h).1
  · intro E inst sp fl x y k h
    rw [PSort_eq_PSortFunc] at h
    exact (PSortFunc_perm sp ltb fl h).1

/-- Concrete instance of C4 for all four operations, including a negative
`k` and an oversized `k`. -/
theorem claim_c4_witness :
    (([-1,2,4,5,9] : List Int) ~ [9,2,5,-1,4]) ∧
    (([9,2,5] : List Int) ~ [9,2,5]) ∧
    (([-1,2,5,9,4] : List Int) ~ [9,2,5,-1,4]) ∧
    (([2,5,9] : List Int) ~ [9,2,5]) :=
  ⟨claim_c4.1 Int spZ ltb 10 [9,2,5,-1,4] [-1,2,4,5,9] 3 rfl,
   claim_c4.2.1 Int spZ 10 [9,2,5] [9,2,5] (-1) (by rfl),
   claim_c4.2.2.1 Int spZ ltb 10 [9,2,5,-1,4] [-1,2,5,9,4] 2
     (by rw [show PSortFunc spZ (ltb : Int → Int → Bool) 10 ([9,2,5,-1,4] : List Int) 2
           = Except.ok (sortPref (fun a b => !ltb b a) 1 [-1,2,5,9,4]) from rfl]
         simp [sortPref]),
   claim_c4.2.2.2 Int spZ 10 [9,2,5] [2,5,9] 5
     (by rw [show PSort spZ 10 ([9,2,5] : List Int) 5
           = Except.ok (sortPref leb 2 [2,5,9]) from rfl]
         simp [sortPref]
         rw [List.mergeSort]
         simp [List.merge, leb])⟩

/-- C5 as frozen is refuted: `Sort` does not clamp `k` to `[1, n]`.  On
`x = [9,2,5]` with `k = -1` the call returns the slice unchanged (a no-op,
exactly what the package's own test expects), and the element left at
index `0` is `9`, which is not a minimum of the slice since `2 < 9`. -/
theorem claim_c5_counterexample :
    PSort spZ 10 ([9,2,5] : List Int) (-1) = .ok [9,2,5] ∧
    ([9,2,5] : List Int).getD 0 0 = 9 ∧
    (2 : Int) ∈ ([9,2,5] : List Int) ∧ ltb (2 : Int) 9 = true :=
  ⟨rfl, rfl, by decide, rfl⟩

/-- C5, amended: `Sort` / `SortFunc` clamp `k` to `min(k, len x)` and treat
every `k ≤ 0` as a no-op — the slice is returned unchanged and no prefix is
selected or sorted — the same convention `TopK` uses. -/
theorem claim_c5_amended :
    (∀ (E : Type) [inst : LinearOrder E] (sp : Int → Int → Int → Int × Int)
      (fl : Nat) (x : List E) (k : Int), k ≤ 0 → PSort sp fl x k = .ok x) ∧
    (∀ (E : Type) (sp : Int → Int → Int → Int × Int) (less : E → E → Bool)
      (fl : Nat) (x : List E) (k : Int), k ≤ 0 →
      PSortFunc sp less fl x k = .ok x) := by
  constructor
  · intro E inst sp fl x k hk
    unfold PSort
    rw [if_neg (by unfold minI; split <;> omega)]
  · intro E sp less fl x k hk
    unfold PSortFunc
    rw [if_neg (by unfold minI; split <;> omega)]

/-- Concrete instance of the amended C5: `Sort`/`SortFunc` with `k = -1` on
`[9,2,5]` are no-ops. -/
theorem claim_c5_witness :
    PSort spZ 10 ([9,2,5] : List Int) (-1) = .ok [9,2,5] ∧
    PSortFunc spZ (ltb : Int → Int → Bool) 10 [9,2,5] (-1) = .ok [9,2,5] :=
  ⟨claim_c5_amended.1 Int spZ 10 [9,2,5] (-1) (by decide),
   claim_c5_amended.2 Int spZ ltb 10 [9,2,5] (-1) (by decide)⟩

/-- C6: For every slice `x`, `TopK`/`TopKFunc` with `k ≤ 0` leave `x`
completely unchanged, and with `k ≥ len x` they compute exactly what they
compute for `k = len x` (the oversized rank is clamped); no error is raised
in either case. -/
theorem claim_c6 :
    (∀ (E : Type) [inst : LinearOrder E] (sp : Int → Int → Int → Int × Int)
      (fl : Nat) (x : List E) (k : Int), k ≤ 0 → TopK sp fl x k = .ok x) ∧
    (∀ (E : Type) (sp : Int → Int → Int → Int × Int) (less : E → E → Bool)
      (fl : Nat) (x : List E) (k : Int), k ≤ 0 →
      TopKFunc sp less fl x k = .ok x) ∧
    (∀ (E : Type) [inst : LinearOrder E] (sp : Int → Int → Int → Int × Int)
      (fl : Nat) (x : List E) (k : Int), (x.length : Int) ≤ k →
      TopK sp fl x k = TopK sp fl x (x.length : Int)) ∧
    (∀ (E : Type) (sp : Int → Int → Int → Int × Int) (less : E → E → Bool)
      (fl : Nat) (x : List E) (k : Int), (x.length : Int) ≤ k →
      TopKFunc sp less fl x k = TopKFunc sp less fl x (x.length : Int)) := by
  refine ⟨?_, ?_, ?_, ?_⟩
  · intro E inst sp fl x k hk
    unfold TopK
    rw [if_neg (by unfold minI; split <;> omega)]
  · intro E sp less fl x k hk
    unfold TopKFunc
    rw [if_neg (by unfold minI; split <;> omega)]
  · intro E inst sp fl x k hk
    unfold TopK
    rw [show minI k (x.length : Int) = (x.length : Int) from
          by unfold minI; split <;> omega,
        show minI (x.length : Int) (x.length : Int) = (x.length : Int) from
          by unfold minI; split <;> omega]
  · intro E sp less fl x k hk
    unfold TopKFunc
    rw [show minI k (x.length : Int) = (x.length : Int) from
          by unfold minI; split <;> omega,
        show minI (x.length : Int) (x.length : Int) = (x.length : Int) from
          by unfold minI; split <;> omega]

/-- Concrete instance of C6: `k = -1` is a no-op and `k = 5` behaves as
`k = 3` on a slice of length 3. -/
theorem claim_c6_witness :
    TopK spZ 10 ([9,2,5] : List Int) (-1) = .ok [9,2,5] ∧
    TopKFunc spZ (ltb : Int → Int → Bool) 10 [9,2,5] (-1) = .ok [9,2,5] ∧
    TopK spZ 10 ([9,2,5] : List Int) 5 =
      TopK spZ 10 ([9,2,5] : List Int) (([9,2,5] : List Int).length : Int) ∧
    TopKFunc spZ (ltb : Int → Int → Bool) 10 [9,2,5] 5 =
      TopKFunc spZ (ltb : Int → Int → Bool) 10 [9,2,5]
        (([9,2,5] : List Int).length : Int) :=
  ⟨claim_c6.1 Int spZ 10 [9,2,5] (-1) (by decide),
   claim_c6.2.1 Int spZ ltb 10 [9,2,5] (-1) (by decide),
   claim_c6.2.2.1 Int spZ 10 [9,2,5] 5 (by decide),
   claim_c6.2.2.2 Int spZ ltb 10 [9,2,5] 5 (by decide)⟩

/-- C7: For every slice, every target index `k` with
`0 ≤ left ≤ k ≤ right ≤ len x - 1`, and every strict-weak-order `less`, the
selection engine terminates: some step budget yields a result.  The
floating-point sample-bound computation is abstracted by the sampler `sp`;
the theorem holds for every sampler whose clamped window strictly shrinks,
which is what the source formulas are designed to guarantee, so the
partition-and-narrow loop and the sampling recursion terminate even when
all elements are order-equivalent to the pivot. -/
theorem claim_c7 :
    (∀ (E : Type) (less : E → E → Bool) (sp : Int → Int → Int → Int × Int),
      Asymm less → NegTrans less →
      (∀ l r k : Int, 600 < r - l →
        minI r (sp l r k).2 - maxI l (sp l r k).1 < r - l) →
      ∀ (x : List E) (l r k : Int), 0 ≤ l → l ≤ k → k ≤ r →
        r ≤ (x.length : Int) - 1 →
        ∃ fl y, frFunc sp less fl x l r k = .ok y) ∧
    (∀ (E : Type) [inst : LinearOrder E] (sp : Int → Int → Int → Int × Int),
      (∀ l r k : Int, 600 < r - l →
        minI r (sp l r k).2 - maxI l (sp l r k).1 < r - l) →
      ∀ (x : List E) (l r k : Int), 0 ≤ l → l ≤ k → k ≤ r →
        r ≤ (x.length : Int) - 1 →
        ∃ fl y, frOrd sp fl x l r k = .ok y) := by
  constructor
  · intro E less sp hA hN hsp x l r k h0l hlk hkr hr
    cases x with
    | nil =>
      exfalso
      simp at hr
      omega
    | cons a tl =>
      obtain ⟨y, hy⟩ := frFunc_total a sp less hA hsp ((r - l).toNat) (a :: tl)
        l r k (le_refl _) h0l (by omega) (by omega) (by omega)
      exact ⟨(r - l).toNat + 1, y, hy⟩
  · intro E inst sp hsp x l r k h0l hlk hkr hr
    cases x with
    | nil =>
      exfalso
      simp at hr
      omega
    | cons a tl =>
      obtain ⟨y, hy⟩ := frFunc_total a sp ltb ltb_asymm hsp ((r - l).toNat)
        (a :: tl) l r k (le_refl _) h0l (by omega) (by omega) (by omega)
      refine ⟨(r - l).toNat + 1, y, ?_⟩
      rw [frOrd_eq]
      exact hy

/-- Concrete instance of C7 with an all-ties comparison (every element
order-equivalent to the pivot) and a strictly shrinking sampler. -/
theorem claim_c7_witness :
    (∃ fl y, frFunc spShrink (fun _ _ : Int => false) fl [7,7,7] 0 2 1 = .ok y) ∧
    (∃ fl y, frOrd spShrink fl ([3,1,2] : List Int) 0 2 1 = .ok y) :=
  ⟨claim_c7.1 Int (fun _ _ => false) spShrink (fun _ _ h => by cases h)
     (fun _ _ _ _ _ => rfl)
     (by intro l r k h; simp [spShrink, minI, maxI]; omega)
     [7,7,7] 0 2 1 (by decide) (by decide) (by decide) (by decide),
   claim_c7.2 Int spShrink
     (by intro l r k h; simp [spShrink, minI, maxI]; omega)
     [3,1,2] 0 2 1 (by decide) (by decide) (by decide) (by decide)⟩

/-- C8: Applying `TopKFunc` twice with the same in-range `k` yields the same
observable partition as applying it once: after the second application the
permutation and partition postconditions still hold relative to the
original slice, and the element at `k-1` is order-equivalent to its value
after the first application. -/
theorem claim_c8 :
    ∀ (E : Type) (d : E) (sp : Int → Int → Int → Int × Int)
      (less : E → E → Bool) (fl fl2 : Nat) (x y z : List E) (k : Int),
    Asymm less → NegTrans less → 1 ≤ k → k ≤ (x.length : Int) →
    TopKFunc sp less fl x k = .ok y → TopKFunc sp less fl2 y k = .ok z →
    z ~ x ∧ partitionAt less d z (k - 1) ∧
    EquivL less (z.getD (k-1).toNat d) (y.getD (k-1).toNat d) := by
  intro E d sp less fl fl2 x y z k hA hN hk1 hk2 h1 h2
  obtain ⟨hyx, hylen⟩ := TopKFunc_perm sp less fl h1
  obtain ⟨hzy, hzlen⟩ := TopKFunc_perm sp less fl2 h2
  have hk2y : k ≤ (y.length : Int) := by omega
  refine ⟨hzy.trans hyx, TopKFunc_partition d sp less hA hN fl2 hk1 hk2y h2, ?_⟩
  have hsort := mergeSort_sorted_swo less hA hN x
  have hsperm : x.mergeSort (fun a b => !less b a) ~ x := List.mergeSort_perm x _
  have e1 := TopKFunc_kth d sp less hA hN fl hk1 hk2 h1 hsperm hsort
  have e2 := TopKFunc_kth d sp less hA hN fl2 hk1 hk2y h2
    (hsperm.trans hyx.symm) hsort
  exact ⟨hN _ _ _ e1.2 e2.1, hN _ _ _ e2.2 e1.1⟩

/-- Concrete instance of C8: running `TopKFunc` twice on `[9,2,5,-1,4]`
with `k = 3`. -/
theorem claim_c8_witness :
    (([-1,2,4,5,9] : List Int) ~ [9,2,5,-1,4]) ∧
    partitionAt ltb 0 ([-1,2,4,5,9] : List Int) ((3:Int) - 1) ∧
    EquivL ltb (([-1,2,4,5,9] : List Int).getD ((3:Int)-1).toNat 0)
      (([-1,2,4,5,9] : List Int).getD ((3:Int)-1).toNat 0) :=
  claim_c8 Int 0 spZ ltb 10 10 [9,2,5,-1,4] [-1,2,4,5,9] [-1,2,4,5,9] 3
    ltb_asymm ltb_negtrans (by decide) (by decide) (by rfl) (by rfl)

/-- C9: For every call of the selection engine with
`0 ≤ left ≤ k ≤ right ≤ len x - 1`, no out-of-range slice access occurs:
the instrumented evaluator never returns the out-of-bounds error, for any
comparison function and any step budget. -/
theorem claim_c9 :
    (∀ (E : Type) (sp : Int → Int → Int → Int × Int) (less : E → E → Bool)
      (fl : Nat) (x : List E) (l r k : Int),
      0 ≤ l → l ≤ k → k ≤ r → r ≤ (x.length : Int) - 1 →
      frFunc sp less fl x l r k ≠ .error .oob) ∧
    (∀ (E : Type) [inst : LinearOrder E] (sp : Int → Int → Int → Int × Int)
      (fl : Nat) (x : List E) (l r k : Int),
      0 ≤ l → l ≤ k → k ≤ r → r ≤ (x.length : Int) - 1 →
      frOrd sp fl x l r k ≠ .error .oob) := by
  constructor
  · intro E sp less fl x l r k h0l hlk hkr hr
    cases x with
    | nil =>
      exfalso
      simp at hr
      omega
    | cons a tl =>
      exact (frFunc_safe a sp less fl (a :: tl) l r k h0l (by omega) (by omega)
        (by omega)).1
  · intro E inst sp fl x l r k h0l hlk hkr hr
    cases x with
    | nil =>
      exfalso
      simp at hr
      omega
    | cons a tl =>
      rw [frOrd_eq]
      exact (frFunc_safe a sp ltb fl (a :: tl) l r k h0l (by omega) (by omega)
        (by omega)).1

/-- Concrete instance of C9. -/
theorem claim_c9_witness :
    frFunc spZ (ltb : Int → Int → Bool) 10 [9,2,5] 0 2 1 ≠ .error .oob ∧
    frOrd spZ 10 ([9,2,5] : List Int) 0 2 1 ≠ .error .oob :=
  ⟨claim_c9.1 Int spZ ltb 10 [9,2,5] 0 2 1 (by decide) (by decide) (by decide)
     (by decide),
   claim_c9.2 Int spZ 10 [9,2,5] 0 2 1 (by decide) (by decide) (by decide)
     (by decide)⟩

/-- C10: For every slice of a natively ordered element type and every `k`,
`TopK` computes exactly the same result as `TopKFunc` with the natural
strict comparison: the `x[left] == t` pivot test of `floydRivest` agrees
with the neither-less-than test of `floydRivestFunc` on a linear order. -/
theorem claim_c10 :
    ∀ (E : Type) [inst : LinearOrder E] (sp : Int → Int → Int → Int × Int)
      (fl : Nat) (x : List E) (k : Int),
    TopK sp fl x k = TopKFunc sp ltb fl x k := by
  intro E inst sp fl x k
  exact TopK_eq_TopKFunc sp fl x k

end Claims

end PartSel
